import Mathlib

/-!
# TerrainGen: the chunk lifecycle of `AProceduralTerrain`

A shallow embedding of `Source/TerrainGen/Private/ProceduralTerrain.cpp`.

Conventions of the embedding.

* The `float` quantities that the spawn and cull tests compute with (observer position,
  `ChunkSize`, `RenderRadius`, distances) are IEEE 754 binary32 values, type `F32`: a
  finite value, an infinity or a NaN.  Every operation rounds its exact result to the
  nearest binary32 value, ties to even, with gradual underflow and overflow to infinity;
  `powf (a, 2)` is the rounded square.  The sign of a zero is not kept: it only matters
  for a division by zero, whose result is infinite or NaN either way.
* The noise parameters (`Scale`, `HeightToWidthRatio`, `frequency`, `heightScale`, the
  frequency of the generator) are exact rationals; they only feed the noise generator.
* Chunk coordinates are integers; the conversion `int v = <float expression>` truncates
  toward zero and is undefined when the truncated value is not a 32 bit `int`.
* A `TMap<TPair<int, int>, V>` is an insertion-ordered list of key/value pairs whose keys
  are pairwise distinct.
* `UProceduralMeshComponent*` handles are object identities handed out by `NewObject`
  from a counter; the components registered with the world are kept in `world`.
* Every member function returns the new actor state together with the list of events it
  performed, in program order: lock operations on `ChunkDeletion`, container accesses and
  calls into the mesh component.
* Undefined behaviour (converting an infinite, NaN or out of range float to `int`,
  dereferencing a null `Find` result) is the result `none`.
-/

namespace TerrainGen

/-! ## Data model -/

/-- Key of both maps, `TPair<int, int>`. -/
abbrev ChunkCoord := Int × Int

/-- Identity of a `UProceduralMeshComponent` object. -/
abbrev MeshHandle := Nat

/-- Conversion of a finite value to an integer: truncation toward zero. -/
def truncToInt (q : ℚ) : Int := if 0 ≤ q then ⌊q⌋ else ⌈q⌉

/-- Rounding to the nearest integer, ties to the even one. -/
def roundHalfEven (t : ℚ) : Int :=
  if t - ⌊t⌋ < 1 / 2 then ⌊t⌋
  else if 1 / 2 < t - ⌊t⌋ then ⌊t⌋ + 1
  else if ⌊t⌋ % 2 = 0 then ⌊t⌋ else ⌊t⌋ + 1

/-- Binary search for the position of the leading bit of `m`: started with
`2 ^ k ≤ m < 2 ^ (k + 2 ^ n)`, the result is the `l` with `2 ^ l ≤ m < 2 ^ (l + 1)`. -/
def log2Search : Nat → Nat → Nat → Nat
  | 0, _, k => k
  | n + 1, m, k =>
    if 2 ^ (k + 2 ^ n) ≤ m then log2Search n m (k + 2 ^ n) else log2Search n m k

/-- A value of the type `float` (IEEE 754 binary32): NaN, an infinity with its sign, or a
finite value.  Arithmetic only produces finite values that are binary32 numbers. -/
inductive F32 where
  | nan
  | inf (negative : Bool)
  | fin (q : ℚ)
deriving DecidableEq

namespace F32

/-- The unit in the last place of a magnitude `0 ≤ q < 2 ^ 128` is
`2 ^ unitIndex q / 2 ^ 149`: the index is 0, the unit of the subnormals, for magnitudes
below `2 ^ 24 * 2 ^ (-149)`, and otherwise such that the magnitude has 24 significant bits
in units. -/
def unitIndex (q : ℚ) : Nat := log2Search 9 ⌊q * 2 ^ 149⌋.toNat 0 - 23

/-- The unit in the last place of a magnitude. -/
def unit (q : ℚ) : ℚ := 2 ^ unitIndex q / 2 ^ 149

/-- The magnitude `q ≥ 0` rounded to the nearest multiple of its unit, ties to even. -/
def roundMag (q : ℚ) : ℚ := roundHalfEven (q / unit q) * unit q

/-- The float nearest to the magnitude `q ≥ 0`, with the given sign; a magnitude that is or
rounds to `2 ^ 128` or more is an infinity. -/
def ofMag (negative : Bool) (q : ℚ) : F32 :=
  if 2 ^ 128 ≤ q then inf negative
  else if roundMag q < 2 ^ 128 then fin (if negative then -roundMag q else roundMag q)
  else inf negative

/-- The float nearest to a rational, ties to even. -/
def round (q : ℚ) : F32 := if 0 ≤ q then ofMag false q else ofMag true (-q)

/-- A numeral as a float; the numerals of this file are binary32 numbers. -/
instance (n : Nat) : OfNat F32 n := ⟨fin n⟩

/-- Negation. -/
def neg : F32 → F32
  | nan => nan
  | inf a => inf (!a)
  | fin q => fin (-q)

/-- Unary minus on floats. -/
instance : Neg F32 := ⟨neg⟩

/-- Addition `a + b`. -/
def add : F32 → F32 → F32
  | nan, _ => nan
  | _, nan => nan
  | inf a, inf b => if a = b then inf a else nan
  | inf a, fin _ => inf a
  | fin _, inf b => inf b
  | fin a, fin b => round (a + b)

/-- Subtraction `a - b`. -/
def sub (a b : F32) : F32 := add a (neg b)

/-- Multiplication `a * b`. -/
def mul : F32 → F32 → F32
  | nan, _ => nan
  | _, nan => nan
  | inf a, inf b => inf (a != b)
  | inf a, fin q => if q = 0 then nan else inf (a != decide (q < 0))
  | fin q, inf b => if q = 0 then nan else inf (b != decide (q < 0))
  | fin a, fin b => round (a * b)

/-- Division `a / b`; a zero divisor is taken as positive. -/
def div : F32 → F32 → F32
  | nan, _ => nan
  | _, nan => nan
  | inf _, inf _ => nan
  | inf a, fin q => inf (a != decide (q < 0))
  | fin _, inf _ => fin 0
  | fin a, fin b =>
    if b = 0 then (if a = 0 then nan else inf (decide (a < 0))) else round (a / b)

/-- The call `powf (a, 2)`. -/
def sq : F32 → F32
  | nan => nan
  | inf _ => inf false
  | fin a => round (a * a)

/-- The comparison `a < b`; `a > b` is `lt b a`.  A comparison with NaN is false. -/
def lt : F32 → F32 → Bool
  | nan, _ => false
  | _, nan => false
  | inf a, inf b => a && !b
  | inf a, fin _ => a
  | fin _, inf b => !b
  | fin a, fin b => decide (a < b)

/-- The comparison `a <= b`; `a >= b` is `le b a`.  A comparison with NaN is false. -/
def le : F32 → F32 → Bool
  | nan, _ => false
  | _, nan => false
  | inf a, inf b => a || !b
  | inf a, fin _ => a
  | fin _, inf b => !b
  | fin a, fin b => decide (a ≤ b)

/-- Conversion of an `int` to `float`, as in `x * ChunkSize`. -/
def ofInt (x : Int) : F32 := round x

/-- Conversion of a `float` to `int`: truncation toward zero, undefined for NaN, for an
infinity and when the truncated value is outside the range of a 32 bit `int`. -/
def toInt : F32 → Option Int
  | fin q => if -2 ^ 31 ≤ truncToInt q ∧ truncToInt q < 2 ^ 31 then some (truncToInt q) else none
  | _ => none

/-- The expression `v * 1.50` stored into a `float`: the product is formed in double
precision, where it is exact for a binary32 `v` (26 significant bits at most), and is
rounded once when it is narrowed to binary32. -/
def timesOneAndHalf : F32 → F32
  | nan => nan
  | inf a => inf a
  | fin q => round (q * (150 / 100))

/-- The value is a binary32 number, an infinity or NaN: rounding leaves it as it is. -/
def IsFloat (v : F32) : Prop := ∀ q, v = fin q → round q = fin q

end F32

/-- Two dimensional vector of floats. -/
structure FVector2D where
  X : F32
  Y : F32
deriving DecidableEq

/-- Three dimensional vector of floats. -/
structure FVector where
  X : F32
  Y : F32
  Z : F32
deriving DecidableEq

/-- Modelled from the spec: the class `ChunkInfo` is declared in a header that is not part
of the sources; the spec describes it (ChunkMeshData) as the vertex positions, triangle
indices, normals, UV coordinates, vertex colours and tangents of one chunk. -/
structure ChunkInfo where
  Vertices : List FVector
  Triangles : List Int
  Normals : List FVector
  UVMap : List FVector2D
  Colors : List (F32 × F32 × F32 × F32)
  Tangents : List FVector
deriving DecidableEq

/-- The integers `a, a + 1, ..., b - 1` visited by `for (int i = a; i < b; i++)`. -/
def intRange (a b : Int) : List Int := (List.range (b - a).toNat).map (fun (i : Nat) => a + (i : Int))

/-- A `TMap` keyed by chunk coordinates: the stored pairs in iteration order, with
pairwise distinct keys. -/
structure TMap (V : Type) where
  entries : List (ChunkCoord × V)
  nodup : (entries.map Prod.fst).Nodup

namespace TMap

variable {V : Type}

/-- The keys in iteration order. -/
def keys (m : TMap V) : List ChunkCoord := m.entries.map Prod.fst

/-- The values in iteration order. -/
def values (m : TMap V) : List V := m.entries.map Prod.snd

/-- The map without elements, the result of `TMap::Empty`. -/
def Empty : TMap V := ⟨[], List.nodup_nil⟩

/-- Lookup `TMap::Find`: the value stored under the key, `none` for the null pointer. -/
def Find (m : TMap V) (k : ChunkCoord) : Option V :=
  (m.entries.find? (fun e => e.1 == k)).map Prod.snd

/-- Membership test `TMap::Contains`. -/
def Contains (m : TMap V) (k : ChunkCoord) : Bool := (m.Find k).isSome

/-- Insertion `TMap::Add`: the value of an existing key is replaced in place, a new key is
appended. -/
def Add (m : TMap V) (k : ChunkCoord) (v : V) : TMap V :=
  if h : m.Contains k = true then
    ⟨m.entries.map (fun e => if e.1 = k then (k, v) else e), by
      have hmap : (m.entries.map (fun e => if e.1 = k then (k, v) else e)).map Prod.fst
          = m.entries.map Prod.fst := by
        rw [List.map_map]
        apply List.map_congr_left
        intro e _
        by_cases he : e.1 = k <;> simp [he]
      rw [hmap]
      exact m.nodup⟩
  else
    ⟨m.entries ++ [(k, v)], by
      have hk : k ∉ m.entries.map Prod.fst := by
        intro hmem
        apply h
        obtain ⟨e, he, hek⟩ := List.mem_map.1 hmem
        have : (m.entries.find? (fun e => e.1 == k)).isSome = true :=
          List.find?_isSome.2 ⟨e, he, by simp [hek]⟩
        simpa [Contains, Find] using this
      rw [List.map_append, List.nodup_append]
      refine ⟨m.nodup, by simp, ?_⟩
      intro a ha hb
      simp only [List.map_cons, List.map_nil, List.mem_singleton] at hb
      subst hb
      exact hk ha⟩

/-- Removal `TMap::Remove` of the pair stored under the key. -/
def Remove (m : TMap V) (k : ChunkCoord) : TMap V :=
  ⟨m.entries.filter (fun e => e.1 != k),
    List.Nodup.sublist (List.Sublist.map Prod.fst (List.filter_sublist m.entries)) m.nodup⟩

end TMap

/-- What a thread does, in program order: operations of the scoped locks on
`ChunkDeletion`, accesses to `chunkMap` and `infoMap`, and calls into the mesh component.
The actor performs every event but `infoMapAdd`, which is the write of the worker. -/
inductive Event where
  | lock
  | unlock
  | chunkMapContains (c : ChunkCoord)
  | chunkMapAdd (c : ChunkCoord) (h : MeshHandle)
  | chunkMapRead (c : ChunkCoord)
  | chunkMapFind (c : ChunkCoord)
  | chunkMapRemove (c : ChunkCoord)
  | chunkMapEmpty
  | chunkMapCompact
  | chunkMapShrink
  | infoMapContains (c : ChunkCoord)
  | infoMapFind (c : ChunkCoord)
  | infoMapEmpty
  | infoMapAdd (c : ChunkCoord) (info : ChunkInfo)
  | newObject (h : MeshHandle)
  | setWorldLocation (h : MeshHandle) (v : FVector)
  | createMeshSection (h : MeshHandle) (info : ChunkInfo)
  | setMaterial (h : MeshHandle) (material : Nat)
  | registerComponent (h : MeshHandle)
  | unregisterComponent (h : MeshHandle)
  | destroyComponent (h : MeshHandle)
deriving DecidableEq

/-- Calls into the mesh component, as opposed to lock operations and container accesses. -/
def Event.isMeshCall : Event → Bool
  | Event.newObject _ => true
  | Event.setWorldLocation _ _ => true
  | Event.createMeshSection _ _ => true
  | Event.setMaterial _ _ => true
  | Event.registerComponent _ => true
  | Event.unregisterComponent _ => true
  | Event.destroyComponent _ => true
  | _ => false

/-- Events that have to happen under `ChunkDeletion`: every access to the Chunk Cache
`infoMap` (the write of the worker included), and every insertion into and removal from
the Spawned table `chunkMap`. -/
def Event.needsLock : Event → Bool
  | Event.infoMapContains _ => true
  | Event.infoMapFind _ => true
  | Event.infoMapEmpty => true
  | Event.infoMapAdd _ _ => true
  | Event.chunkMapAdd _ _ => true
  | Event.chunkMapRemove _ => true
  | Event.chunkMapEmpty => true
  | _ => false

/-- A mesh component after `spawnChunk` has set it up: its identity, world location, the
buffers of mesh section 0 and the material of slot 0. -/
structure UProceduralMeshComponent where
  id : MeshHandle
  location : FVector
  section0 : ChunkInfo
  material : Nat
deriving DecidableEq

/-- Modelled from the spec: the class `FastNoise` is not part of the sources; the spec
describes the generator by its seed, frequency and octave configuration.  These are the
settings the actor writes. -/
structure FastNoise where
  Seed : Int
  SimplexFractal : Bool
  FractalOctaves : Int
  Frequency : ℚ
deriving DecidableEq

/-- Modelled from the spec: the class `ChunkGenParams` is declared in a header that is not
part of the sources; the fields are the arguments of its constructor in `GetParams`
(resolution, chunk size, curve, height scale).  The third argument there is the address of
the actor member `noiseGen`, so the generator state is the one shared with the actor. -/
structure ChunkGenParams where
  ChunkResolution : Int
  ChunkSize : F32
  TerrainCurve : Nat
  heightScale : ℚ
deriving DecidableEq

/-- Modelled from the spec: the class `ChunkInfoWorker` is not part of the sources; these
are the members the actor writes.  Its members `infoMapPtr` and `ChunkDeletion` point at
the actor members `infoMap` and `ChunkDeletion`. -/
structure ChunkInfoWorker where
  Params : ChunkGenParams
  GenerateRadius : F32
  playerPos : FVector
deriving DecidableEq

/-- Modelled from the spec: the header `ProceduralTerrain.h` is not part of the sources;
the spec lists the configuration surface of the actor as Scale, HeightToWidthRatio,
ChunkResolution, ChunkSize, RenderRadius, TerrainCurve and TerrainMaterial.  The numeric
properties but the resolution are taken as floats (the two noise parameters as exact
rationals), the curve and the material as asset identities. -/
structure Properties where
  Scale : ℚ
  HeightToWidthRatio : ℚ
  ChunkResolution : Int
  ChunkSize : F32
  RenderRadius : F32
  TerrainCurve : Nat
  TerrainMaterial : Nat
deriving DecidableEq

/-- The actor `AProceduralTerrain` with the members the source file uses, together with
the part of the world it acts on: the identity the next `NewObject` returns and the mesh
components registered with the world. -/
structure AProceduralTerrain extends Properties where
  seed : Int
  frequency : ℚ
  heightScale : ℚ
  noiseGen : FastNoise
  infoWorker : ChunkInfoWorker
  chunkMap : TMap MeshHandle
  infoMap : TMap ChunkInfo
  nextObject : MeshHandle
  world : List UProceduralMeshComponent

/-! ## Member functions -/

/-- The call `GetParams`. -/
def GetParams (s : AProceduralTerrain) : ChunkGenParams :=
  { ChunkResolution := s.ChunkResolution, ChunkSize := s.ChunkSize,
    TerrainCurve := s.TerrainCurve, heightScale := s.heightScale }

/-- The constructor: `seed = rand ()` is the argument `seed`; the generator gets the seed,
the simplex fractal noise type and six octaves and keeps the frequency `noiseFrequency` it
was constructed with.  The property values and the worker are those of the declaration. -/
def construct (props : Properties) (seed : Int) (noiseFrequency : ℚ)
    (worker : ChunkInfoWorker) : AProceduralTerrain :=
  { toProperties := props, seed := seed, frequency := 0, heightScale := 0,
    noiseGen := { Seed := seed, SimplexFractal := true, FractalOctaves := 6,
                  Frequency := noiseFrequency },
    infoWorker := worker, chunkMap := TMap.Empty, infoMap := TMap.Empty,
    nextObject := 0, world := [] }

/-- The call `BeginPlay`; `pawnLocation` is the location of the first player pawn. -/
def BeginPlay (s : AProceduralTerrain) (pawnLocation : FVector) : AProceduralTerrain :=
  let s1 := { s with frequency := 256 / s.Scale, heightScale := s.Scale * s.HeightToWidthRatio }
  let s2 := { s1 with noiseGen := { s1.noiseGen with
                Frequency := (625 / 10000000 : ℚ) * s1.frequency / 16 } }
  { s2 with infoWorker :=
      { Params := { GetParams s2 with TerrainCurve := s2.TerrainCurve },
        GenerateRadius := s2.RenderRadius.timesOneAndHalf,
        playerPos := pawnLocation } }

/-- The call `spawnChunk (x, y)`. -/
def spawnChunk (s : AProceduralTerrain) (x y : Int) : AProceduralTerrain × List Event :=
  let chunkPos : ChunkCoord := (x, y)
  if s.chunkMap.Contains chunkPos = true then
    (s, [Event.lock, Event.chunkMapContains chunkPos, Event.unlock])
  else if h : s.infoMap.Contains chunkPos = true then
    let chunkInfo : ChunkInfo := (s.infoMap.Find chunkPos).get h
    let procMesh : MeshHandle := s.nextObject
    let location : FVector :=
      ⟨F32.mul (F32.ofInt x) s.ChunkSize, F32.mul (F32.ofInt y) s.ChunkSize, 0⟩
    ({ s with
        nextObject := s.nextObject + 1,
        world := s.world ++ [{ id := procMesh, location := location, section0 := chunkInfo,
                               material := s.TerrainMaterial }],
        chunkMap := s.chunkMap.Add (x, y) procMesh },
     [Event.lock, Event.chunkMapContains chunkPos, Event.infoMapContains chunkPos,
      Event.infoMapFind chunkPos, Event.newObject procMesh,
      Event.setWorldLocation procMesh location, Event.createMeshSection procMesh chunkInfo,
      Event.setMaterial procMesh s.TerrainMaterial, Event.registerComponent procMesh,
      Event.chunkMapAdd (x, y) procMesh, Event.unlock])
  else
    (s, [Event.lock, Event.chunkMapContains chunkPos, Event.infoMapContains chunkPos,
         Event.unlock])

/-- The value `renderRadiusSquare = powf (RenderRadius, 2)`. -/
def renderRadiusSquare (s : AProceduralTerrain) : F32 := F32.sq s.RenderRadius

/-- The value `distanceFromPlayerSquare` that both passes compute for a coordinate:
`powf ((x*ChunkSize - playerLocation.X), 2) + powf ((y*ChunkSize - playerLocation.Y), 2)`. -/
def distanceFromPlayerSquare (s : AProceduralTerrain) (playerLocation : FVector2D)
    (c : ChunkCoord) : F32 :=
  F32.add
    (F32.sq (F32.sub (F32.mul (F32.ofInt c.1) s.ChunkSize) playerLocation.X))
    (F32.sq (F32.sub (F32.mul (F32.ofInt c.2) s.ChunkSize) playerLocation.Y))

/-- The bound `xStart`. -/
def xStart (s : AProceduralTerrain) (playerLocation : FVector2D) : Option Int :=
  F32.toInt (F32.div (F32.sub playerLocation.X s.RenderRadius) s.ChunkSize)

/-- The bound `xEnd`. -/
def xEnd (s : AProceduralTerrain) (playerLocation : FVector2D) : Option Int :=
  F32.toInt (F32.div (F32.add playerLocation.X s.RenderRadius) s.ChunkSize)

/-- The bound `yStart`. -/
def yStart (s : AProceduralTerrain) (playerLocation : FVector2D) : Option Int :=
  F32.toInt (F32.div (F32.sub playerLocation.Y s.RenderRadius) s.ChunkSize)

/-- The bound `yEnd`. -/
def yEnd (s : AProceduralTerrain) (playerLocation : FVector2D) : Option Int :=
  F32.toInt (F32.div (F32.add playerLocation.Y s.RenderRadius) s.ChunkSize)

/-- The coordinates the two nested `for` loops visit, in the order they visit them; `none`
when one of the four bounds is undefined. -/
def spawnWindow (s : AProceduralTerrain) (playerLocation : FVector2D) :
    Option (List ChunkCoord) :=
  match xStart s playerLocation, xEnd s playerLocation, yStart s playerLocation,
    yEnd s playerLocation with
  | some xs, some xe, some ys, some ye =>
    some ((intRange xs xe).flatMap (fun x => (intRange ys ye).map (fun y => (x, y))))
  | _, _, _, _ => none

/-- The test of the spawn loop: `distanceFromPlayerSquare < renderRadiusSquare`. -/
def spawnTest (s : AProceduralTerrain) (playerLocation : FVector2D) (c : ChunkCoord) : Bool :=
  F32.lt (distanceFromPlayerSquare s playerLocation c) (renderRadiusSquare s)

/-- The body of the nested loops run over the coordinates still to visit: `spawnChunk` is
called for a coordinate when `distanceFromPlayerSquare < renderRadiusSquare`. -/
def spawnLoop (playerLocation : FVector2D) :
    AProceduralTerrain → List ChunkCoord → AProceduralTerrain × List Event
  | s, [] => (s, [])
  | s, c :: rest =>
    if spawnTest s playerLocation c = true then
      let r1 := spawnChunk s c.1 c.2
      let r2 := spawnLoop playerLocation r1.1 rest
      (r2.1, r1.2 ++ r2.2)
    else
      spawnLoop playerLocation s rest

/-- The spawn pass of `cullAndSpawnChunks` (the part under `// spawn chunks`). -/
def spawnPass (s : AProceduralTerrain) (playerLocation : FVector2D) :
    Option (AProceduralTerrain × List Event) :=
  match spawnWindow s playerLocation with
  | none => none
  | some window => some (spawnLoop playerLocation s window)

/-- The test of the cull loop: `(distanceFromPlayerSquare + 10000.0f) > renderRadiusSquare`. -/
def cullTest (s : AProceduralTerrain) (playerLocation : FVector2D) (c : ChunkCoord) : Bool :=
  F32.lt (renderRadiusSquare s)
    (F32.add (distanceFromPlayerSquare s playerLocation c) (F32.fin 10000))

/-- The array `chunksToRemove` after the loop over `chunkMap`. -/
def chunksToRemove (s : AProceduralTerrain) (playerLocation : FVector2D) : List ChunkCoord :=
  (s.chunkMap.entries.filter (fun e => cullTest s playerLocation e.1)).map Prod.fst

/-- The calls `UnregisterComponent` and `DestroyComponent` on a handle: the component is
no longer registered with the world. -/
def unregisterAndDestroy (world : List UProceduralMeshComponent) (h : MeshHandle) :
    List UProceduralMeshComponent :=
  world.filter (fun m => m.id != h)

/-- The loop over `chunksToRemove`; dereferencing a null `Find` result is `none`. -/
def removeLoop : AProceduralTerrain → List ChunkCoord → Option (AProceduralTerrain × List Event)
  | s, [] => some (s, [])
  | s, chunk :: rest =>
    match s.chunkMap.Find chunk with
    | none => none
    | some chunkPtr =>
      match removeLoop { s with chunkMap := s.chunkMap.Remove chunk,
                                world := unregisterAndDestroy s.world chunkPtr } rest with
      | none => none
      | some r =>
        some (r.1, [Event.chunkMapFind chunk, Event.chunkMapRemove chunk,
                    Event.unregisterComponent chunkPtr, Event.destroyComponent chunkPtr] ++ r.2)

/-- The cull pass of `cullAndSpawnChunks` (from `// cull chunks` to the end of the locked
block). -/
def cullPass (s : AProceduralTerrain) (playerLocation : FVector2D) :
    Option (AProceduralTerrain × List Event) :=
  match removeLoop s (chunksToRemove s playerLocation) with
  | none => none
  | some r =>
    some (r.1, s.chunkMap.keys.map Event.chunkMapRead ++ [Event.lock] ++ r.2 ++ [Event.unlock])

/-- The call `cullAndSpawnChunks (playerLocation)`.  The call has no result when one of
the four bounds is undefined, as with `ChunkSize = 0`. -/
def cullAndSpawnChunks (s : AProceduralTerrain) (playerLocation : FVector2D) :
    Option (AProceduralTerrain × List Event) :=
  match spawnPass s playerLocation with
  | none => none
  | some r1 =>
    match cullPass r1.1 playerLocation with
    | none => none
    | some r2 => some (r2.1, r1.2 ++ r2.2 ++ [Event.chunkMapCompact, Event.chunkMapShrink])

/-- The call `Tick`; `pawnLocation` is the location of the first player pawn. -/
def Tick (s : AProceduralTerrain) (pawnLocation : FVector) :
    Option (AProceduralTerrain × List Event) :=
  cullAndSpawnChunks { s with infoWorker := { s.infoWorker with playerPos := pawnLocation } }
    ⟨pawnLocation.X, pawnLocation.Y⟩

/-- The call `PostEditChangeProperty`, made after the editor has written the changed
property into the actor. -/
def PostEditChangeProperty (s : AProceduralTerrain) : AProceduralTerrain × List Event :=
  let s1 := { s with frequency := 256 / s.Scale, heightScale := s.Scale * s.HeightToWidthRatio }
  let s2 := { s1 with infoWorker := { s1.infoWorker with
                Params := GetParams s1,
                GenerateRadius := s1.RenderRadius.timesOneAndHalf } }
  ({ s2 with
      world := s2.chunkMap.values.foldl unregisterAndDestroy s2.world,
      chunkMap := TMap.Empty,
      infoMap := TMap.Empty },
   [Event.lock]
     ++ s.chunkMap.entries.flatMap (fun e =>
          [Event.chunkMapRead e.1, Event.unregisterComponent e.2, Event.destroyComponent e.2])
     ++ [Event.chunkMapEmpty, Event.infoMapEmpty, Event.unlock])

/-- An edit of the properties in the editor followed by the notification. -/
def editProperties (s : AProceduralTerrain) (props : Properties) :
    AProceduralTerrain × List Event :=
  PostEditChangeProperty { s with toProperties := props }

/-- Modelled from the spec: the class `ChunkInfoWorker` is not part of the sources.  The
spec gives the only write of the worker to the shared state as `insert (coord, data)`
into the Chunk Cache, made under the coordination lock; it never evicts. -/
def workerInsert (s : AProceduralTerrain) (c : ChunkCoord) (info : ChunkInfo) :
    AProceduralTerrain × List Event :=
  ({ s with infoMap := s.infoMap.Add c info },
   [Event.lock, Event.infoMapAdd c info, Event.unlock])

/-! ## Reachable states, the measure of the spec, and the lock -/

/-- States reachable from start-up by calls of the member functions, edits of the
properties, and insertions of the worker into the Chunk Cache.  The cull pass is a step of
its own, so that a tick interleaved with worker insertions is covered as well. -/
inductive Reachable : AProceduralTerrain → Prop
  | start (props : Properties) (seed : Int) (noiseFrequency : ℚ) (worker : ChunkInfoWorker)
      (pawnLocation : FVector) :
      Reachable (BeginPlay (construct props seed noiseFrequency worker) pawnLocation)
  | spawnChunk (s : AProceduralTerrain) (x y : Int) :
      Reachable s → Reachable (spawnChunk s x y).1
  | cullAndSpawnChunks (s : AProceduralTerrain) (playerLocation : FVector2D)
      (r : AProceduralTerrain × List Event) :
      Reachable s → cullAndSpawnChunks s playerLocation = some r → Reachable r.1
  | cullPass (s : AProceduralTerrain) (playerLocation : FVector2D)
      (r : AProceduralTerrain × List Event) :
      Reachable s → cullPass s playerLocation = some r → Reachable r.1
  | tick (s : AProceduralTerrain) (pawnLocation : FVector)
      (r : AProceduralTerrain × List Event) :
      Reachable s → Tick s pawnLocation = some r → Reachable r.1
  | postEdit (s : AProceduralTerrain) :
      Reachable s → Reachable (PostEditChangeProperty s).1
  | edit (s : AProceduralTerrain) (props : Properties) :
      Reachable s → Reachable (editProperties s props).1
  | worker (s : AProceduralTerrain) (c : ChunkCoord) (info : ChunkInfo) :
      Reachable s → Reachable (workerInsert s c info).1

/-- The invariant of the two tables: every spawned coordinate is cached, the spawned
handles are pairwise distinct, and all of them were handed out by `NewObject` before. -/
def Consistent (s : AProceduralTerrain) : Prop :=
  (∀ c ∈ s.chunkMap.keys, c ∈ s.infoMap.keys)
    ∧ s.chunkMap.values.Nodup
    ∧ ∀ h ∈ s.chunkMap.values, h < s.nextObject

/-- The squared distance of the spec, in exact arithmetic: from the chunk center
`((x + 0.5) * ChunkSize, (y + 0.5) * ChunkSize)` to the observer at `(px, py)`. -/
def specCenterDistanceSquare (chunkSize px py : ℚ) (c : ChunkCoord) : ℚ :=
  (((c.1 : ℚ) + 1 / 2) * chunkSize - px) ^ 2 + (((c.2 : ℚ) + 1 / 2) * chunkSize - py) ^ 2

/-- The squared distance from the world origin corner `(x * ChunkSize, y * ChunkSize)` of a
chunk to the observer at `(px, py)`, in exact arithmetic. -/
def exactCornerDistanceSquare (chunkSize px py : ℚ) (c : ChunkCoord) : ℚ :=
  ((c.1 : ℚ) * chunkSize - px) ^ 2 + ((c.2 : ℚ) * chunkSize - py) ^ 2

/-- Scan of the events of one thread, `held` telling whether the thread holds
`ChunkDeletion`: the result is `none` when the thread takes the lock while it holds it,
releases it while it does not hold it, or performs an event that needs the lock without
holding it; otherwise it tells whether the lock is held at the end. -/
def lockScan : Bool → List Event → Option Bool
  | held, [] => some held
  | held, Event.lock :: rest => if held then none else lockScan true rest
  | held, Event.unlock :: rest => if held then lockScan false rest else none
  | held, e :: rest => if e.needsLock && !held then none else lockScan held rest

/-- The two threads of execution: the game thread that runs the actor, and the thread of
the streaming worker. -/
inductive Thread where
  | foreground
  | background
deriving DecidableEq

/-- Mutual exclusion on `ChunkDeletion` along an interleaving of the events of the two
threads, `owner` being the thread inside the critical section: a thread enters only when
no thread is inside, leaves only when it is inside, and performs an event that needs the
lock only when it is inside. -/
def exclusive : Option Thread → List (Thread × Event) → Bool
  | _, [] => true
  | owner, (t, Event.lock) :: rest => owner.isNone && exclusive (some t) rest
  | owner, (t, Event.unlock) :: rest => (owner == some t) && exclusive none rest
  | owner, (t, e) :: rest => (!e.needsLock || owner == some t) && exclusive owner rest

/-- The events of one thread in an interleaving, in order. -/
def eventsOf (t : Thread) (tr : List (Thread × Event)) : List Event :=
  (tr.filter (fun te => te.1 == t)).map Prod.snd

/-! ## Concrete scenarios -/

/-- A chunk without geometry. -/
def emptyInfo : ChunkInfo := ⟨[], [], [], [], [], []⟩

/-- The coordinates `(x, y)` with `-n ≤ x, y ≤ n`. -/
def cacheBox (n : Int) : List ChunkCoord :=
  (intRange (-n) (n + 1)).flatMap (fun x => (intRange (-n) (n + 1)).map (fun y => (x, y)))

/-- Properties with the given `Scale`, `ChunkSize` and `RenderRadius`. -/
def scenarioProps (scale : ℚ) (chunkSize renderRadius : F32) : Properties :=
  { Scale := scale, HeightToWidthRatio := 1, ChunkResolution := 2, ChunkSize := chunkSize,
    RenderRadius := renderRadius, TerrainCurve := 0, TerrainMaterial := 0 }

/-- The actor after construction and `BeginPlay` with the pawn at the origin. -/
def scenarioStart (scale : ℚ) (chunkSize renderRadius : F32) : AProceduralTerrain :=
  BeginPlay (construct (scenarioProps scale chunkSize renderRadius) 7 (1 / 100)
    ⟨⟨0, 0, 0, 0⟩, 0, ⟨0, 0, 0⟩⟩) ⟨0, 0, 0⟩

/-- The actor after start-up and after the worker has inserted the given coordinates. -/
def scenario (chunkSize renderRadius : F32) (cache : List ChunkCoord) : AProceduralTerrain :=
  cache.foldl (fun s c => (workerInsert s c emptyInfo).1)
    (scenarioStart 1 chunkSize renderRadius)

/-- The actor of `scenario` after one further call `spawnChunk (x, y)`. -/
def scenarioSpawned (chunkSize renderRadius : F32) (x y : Int) : AProceduralTerrain :=
  (spawnChunk (scenario chunkSize renderRadius [(x, y)]) x y).1

/-- The observer at the origin. -/
def origin : FVector2D := ⟨0, 0⟩


/-! ## Rounding -/

theorem roundHalfEven_floor_le (t : ℚ) : ⌊t⌋ ≤ roundHalfEven t := by
  unfold roundHalfEven
  split
  · exact le_refl _
  · split
    · omega
    · split <;> omega

theorem roundHalfEven_le_floor_succ (t : ℚ) : roundHalfEven t ≤ ⌊t⌋ + 1 := by
  unfold roundHalfEven
  split
  · omega
  · split
    · exact le_refl _
    · split <;> omega

theorem roundHalfEven_intCast (k : Int) : roundHalfEven (k : ℚ) = k := by
  unfold roundHalfEven
  simp

theorem roundHalfEven_mono {t1 t2 : ℚ} (h : t1 ≤ t2) : roundHalfEven t1 ≤ roundHalfEven t2 := by
  have hf : ⌊t1⌋ ≤ ⌊t2⌋ := Int.floor_le_floor h
  rcases lt_or_eq_of_le hf with hlt | heq
  · calc roundHalfEven t1 ≤ ⌊t1⌋ + 1 := roundHalfEven_le_floor_succ t1
      _ ≤ ⌊t2⌋ := hlt
      _ ≤ roundHalfEven t2 := roundHalfEven_floor_le t2
  · unfold roundHalfEven
    rw [heq]
    have hfr : t1 - (⌊t2⌋ : ℚ) ≤ t2 - (⌊t2⌋ : ℚ) := by linarith
    by_cases a1 : t1 - (⌊t2⌋ : ℚ) < 1 / 2
    · rw [if_pos a1]
      split
      · exact le_refl _
      · split
        · omega
        · split <;> omega
    · rw [if_neg a1]
      have a2 : ¬ (t2 - (⌊t2⌋ : ℚ) < 1 / 2) := by
        intro h2
        exact a1 (lt_of_le_of_lt hfr h2)
      rw [if_neg a2]
      by_cases b1 : 1 / 2 < t1 - (⌊t2⌋ : ℚ)
      · have b2 : 1 / 2 < t2 - (⌊t2⌋ : ℚ) := lt_of_lt_of_le b1 hfr
        rw [if_pos b1, if_pos b2]
      · rw [if_neg b1]
        split
        · split <;> omega
        · split <;> omega

theorem roundHalfEven_ge {t : ℚ} {k : Int} (h : (k : ℚ) ≤ t) : k ≤ roundHalfEven t := by
  have := roundHalfEven_mono h
  rwa [roundHalfEven_intCast] at this

theorem roundHalfEven_le {t : ℚ} {k : Int} (h : t ≤ (k : ℚ)) : roundHalfEven t ≤ k := by
  have := roundHalfEven_mono h
  rwa [roundHalfEven_intCast] at this



theorem log2Search_spec (n : Nat) :
    ∀ (m k : Nat), 2 ^ k ≤ m → m < 2 ^ (k + 2 ^ n) →
      2 ^ log2Search n m k ≤ m ∧ m < 2 ^ (log2Search n m k + 1) := by
  induction n with
  | zero =>
    intro m k h1 h2
    exact ⟨h1, by simpa using h2⟩
  | succ n ih =>
    intro m k h1 h2
    simp only [log2Search]
    split
    · rename_i h
      apply ih m (k + 2 ^ n) h
      have : k + 2 ^ n + 2 ^ n = k + 2 ^ (n + 1) := by ring
      rw [this]
      exact h2
    · rename_i h
      exact ih m k h1 (not_le.1 h)

theorem log2Search_zero (n : Nat) : log2Search n 0 0 = 0 := by
  induction n with
  | zero => rfl
  | succ n ih =>
    simp only [log2Search]
    rw [if_neg (by simp)]
    exact ih

namespace F32

theorem unit_pos (q : ℚ) : 0 < unit q := by
  unfold unit
  positivity

set_option exponentiation.threshold 1000 in
/-- The unit of a magnitude below `2 ^ 128`: the magnitude has at most 24 bits in units,
and exactly 24 bits unless the unit is the smallest one. -/
theorem unit_spec (q : ℚ) (h0 : 0 ≤ q) (h1 : q < 2 ^ 128) :
    q < 2 ^ 24 * unit q ∧ (unitIndex q = 0 ∨ 2 ^ 23 * unit q ≤ q) := by
  have hx0 : 0 ≤ q * 2 ^ 149 := mul_nonneg h0 (le_of_lt (pow_pos (by norm_num) 149))
  have hfl : (0 : Int) ≤ ⌊q * 2 ^ 149⌋ := Int.floor_nonneg.2 hx0
  obtain ⟨m, hm⟩ := Int.eq_ofNat_of_zero_le hfl
  have hmle : (m : ℚ) ≤ q * 2 ^ 149 := by
    have := Int.floor_le (q * 2 ^ 149)
    rw [hm] at this
    exact_mod_cast this
  have hmlt : q * 2 ^ 149 < (m : ℚ) + 1 := by
    have := Int.lt_floor_add_one (q * 2 ^ 149)
    rw [hm] at this
    exact_mod_cast this
  have hidx : unitIndex q = log2Search 9 m 0 - 23 := by
    unfold unitIndex
    rw [hm, Int.toNat_ofNat]
  have hu : unit q = 2 ^ (log2Search 9 m 0 - 23) / 2 ^ 149 := by
    unfold unit
    rw [hidx]
  rcases Nat.eq_zero_or_pos m with hz | hpos
  · subst hz
    rw [hidx, hu, log2Search_zero]
    refine ⟨?_, Or.inl rfl⟩
    have : q * 2 ^ 149 < 1 := by simpa using hmlt
    have h2 : q < 1 / 2 ^ 149 := by
      rw [lt_div_iff₀ (by positivity)]
      exact this
    calc q < 1 / 2 ^ 149 := h2
      _ ≤ 2 ^ 24 * (2 ^ (0 - 23) / 2 ^ 149) := by norm_num
  · have hmbig : m < 2 ^ (0 + 2 ^ 9) := by
      have h3 : (m : ℚ) < 2 ^ 128 * 2 ^ 149 := by
        calc (m : ℚ) ≤ q * 2 ^ 149 := hmle
          _ < 2 ^ 128 * 2 ^ 149 := by
            apply mul_lt_mul_of_pos_right h1
            positivity
      have h4 : (m : ℚ) < ((2 ^ 512 : Nat) : ℚ) := by
        calc (m : ℚ) < 2 ^ 128 * 2 ^ 149 := h3
          _ ≤ ((2 ^ 512 : Nat) : ℚ) := by norm_num
      exact_mod_cast h4
    obtain ⟨s1, s2⟩ := log2Search_spec 9 m 0 (by simpa using hpos) hmbig
    set l := log2Search 9 m 0 with hl
    rw [hidx, hu]
    constructor
    · have h5 : m + 1 ≤ 2 ^ (24 + (l - 23)) := by
        have : l + 1 ≤ 24 + (l - 23) := by omega
        calc m + 1 ≤ 2 ^ (l + 1) := s2
          _ ≤ 2 ^ (24 + (l - 23)) := Nat.pow_le_pow_right (by norm_num) this
      have h6 : ((m + 1 : Nat) : ℚ) ≤ ((2 ^ (24 + (l - 23)) : Nat) : ℚ) := by exact_mod_cast h5
      push_cast at h6
      have h7 : q * 2 ^ 149 < 2 ^ (24 + (l - 23)) := lt_of_lt_of_le hmlt h6
      rw [pow_add] at h7
      rw [← mul_div_assoc, lt_div_iff₀ (by positivity)]
      exact h7
    · by_cases hj : l - 23 = 0
      · exact Or.inl hj
      · right
        have hl2 : 23 + (l - 23) = l := by omega
        have h5 : ((2 ^ l : Nat) : ℚ) ≤ (m : ℚ) := by exact_mod_cast s1
        push_cast at h5
        have h6 : (2 : ℚ) ^ 23 * 2 ^ (l - 23) ≤ q * 2 ^ 149 := by
          rw [← pow_add, hl2]
          exact le_trans h5 hmle
        rw [← mul_div_assoc, div_le_iff₀ (by positivity)]
        exact h6

/-- The unit of a magnitude is determined by the two bounds of `unit_spec`. -/
theorem unitIndex_unique (q : ℚ) (h0 : 0 ≤ q) (h1 : q < 2 ^ 128) (j : Nat)
    (hj1 : q < 2 ^ 24 * (2 ^ j / 2 ^ 149)) (hj2 : j = 0 ∨ 2 ^ 23 * (2 ^ j / 2 ^ 149) ≤ q) :
    unitIndex q = j := by
  obtain ⟨s1, s2⟩ := unit_spec q h0 h1
  unfold unit at s1 s2
  have key : ∀ a b : Nat, a < b → q < 2 ^ 24 * (2 ^ a / 2 ^ 149) →
      2 ^ 23 * (2 ^ b / 2 ^ 149) ≤ q → False := by
    intro a b hab ha hb
    have h3 : (2 : ℚ) ^ (a + 1) ≤ 2 ^ b := pow_le_pow_right₀ (by norm_num) hab
    have h4 : (2 : ℚ) ^ 24 * (2 ^ a / 2 ^ 149) ≤ 2 ^ 23 * (2 ^ b / 2 ^ 149) := by
      rw [pow_succ] at h3
      rw [← mul_div_assoc, ← mul_div_assoc]
      apply div_le_div_of_nonneg_right _ (by positivity)
      linarith
    linarith
  rcases Nat.lt_trichotomy (unitIndex q) j with hlt | heq | hgt
  · exfalso
    rcases hj2 with hj0 | hj2
    · omega
    · exact key _ _ hlt s1 hj2
  · exact heq
  · exfalso
    rcases s2 with s0 | s2
    · omega
    · exact key _ _ hgt hj1 s2

theorem roundMag_nonneg (q : ℚ) (h0 : 0 ≤ q) : 0 ≤ roundMag q := by
  unfold roundMag
  have h : (0 : Int) ≤ roundHalfEven (q / unit q) :=
    roundHalfEven_ge (by simpa using div_nonneg h0 (le_of_lt (unit_pos q)))
  have h2 : (0 : ℚ) ≤ (roundHalfEven (q / unit q) : ℚ) := by exact_mod_cast h
  exact mul_nonneg h2 (le_of_lt (unit_pos q))

theorem roundMag_le (q : ℚ) (h0 : 0 ≤ q) (h1 : q < 2 ^ 128) :
    roundMag q ≤ 2 ^ 24 * unit q := by
  unfold roundMag
  have hu := unit_pos q
  have h2 : q / unit q ≤ ((2 ^ 24 : Int) : ℚ) := by
    rw [div_le_iff₀ hu]
    push_cast
    exact le_of_lt (unit_spec q h0 h1).1
  have h3 : roundHalfEven (q / unit q) ≤ (2 ^ 24 : Int) := roundHalfEven_le h2
  have h4 : (roundHalfEven (q / unit q) : ℚ) ≤ ((2 ^ 24 : Int) : ℚ) := by exact_mod_cast h3
  push_cast at h4
  exact mul_le_mul_of_nonneg_right h4 (le_of_lt hu)

theorem roundMag_ge (q : ℚ) (h : 2 ^ 23 * unit q ≤ q) : 2 ^ 23 * unit q ≤ roundMag q := by
  unfold roundMag
  have hu := unit_pos q
  have h2 : ((2 ^ 23 : Int) : ℚ) ≤ q / unit q := by
    rw [le_div_iff₀ hu]
    push_cast
    exact h
  have h3 : (2 ^ 23 : Int) ≤ roundHalfEven (q / unit q) := roundHalfEven_ge h2
  have h4 : ((2 ^ 23 : Int) : ℚ) ≤ (roundHalfEven (q / unit q) : ℚ) := by exact_mod_cast h3
  push_cast at h4
  exact mul_le_mul_of_nonneg_right h4 (le_of_lt hu)

theorem unit_le_unit {q1 q2 : ℚ} (h : unitIndex q1 ≤ unitIndex q2) : unit q1 ≤ unit q2 := by
  unfold unit
  apply div_le_div_of_nonneg_right _ (by positivity)
  exact pow_le_pow_right₀ (by norm_num) h

/-- Rounding of magnitudes is monotone. -/
theorem roundMag_mono (q1 q2 : ℚ) (h0 : 0 ≤ q1) (h : q1 ≤ q2) (h2 : q2 < 2 ^ 128) :
    roundMag q1 ≤ roundMag q2 := by
  have h1 : q1 < 2 ^ 128 := lt_of_le_of_lt h h2
  have h02 : 0 ≤ q2 := le_trans h0 h
  obtain ⟨a1, b1⟩ := unit_spec q1 h0 h1
  obtain ⟨a2, b2⟩ := unit_spec q2 h02 h2
  rcases Nat.lt_trichotomy (unitIndex q1) (unitIndex q2) with hlt | heq | hgt
  · have hb : 2 ^ 23 * unit q2 ≤ q2 := by
      rcases b2 with b0 | b2
      · omega
      · exact b2
    have hu : 2 * unit q1 ≤ unit q2 := by
      unfold unit
      have h3 : (2 : ℚ) ^ (unitIndex q1 + 1) ≤ 2 ^ unitIndex q2 :=
        pow_le_pow_right₀ (by norm_num) hlt
      rw [pow_succ] at h3
      rw [← mul_div_assoc]
      apply div_le_div_of_nonneg_right _ (by positivity)
      linarith
    calc roundMag q1 ≤ 2 ^ 24 * unit q1 := roundMag_le q1 h0 h1
      _ ≤ 2 ^ 23 * unit q2 := by linarith
      _ ≤ roundMag q2 := roundMag_ge q2 hb
  · have hu : unit q1 = unit q2 := by unfold unit; rw [heq]
    unfold roundMag
    rw [hu]
    have hm : roundHalfEven (q1 / unit q2) ≤ roundHalfEven (q2 / unit q2) :=
      roundHalfEven_mono (div_le_div_of_nonneg_right h (le_of_lt (unit_pos q2)))
    have hm2 : (roundHalfEven (q1 / unit q2) : ℚ) ≤ (roundHalfEven (q2 / unit q2) : ℚ) := by
      exact_mod_cast hm
    exact mul_le_mul_of_nonneg_right hm2 (le_of_lt (unit_pos q2))
  · exfalso
    have hb : 2 ^ 23 * unit q1 ≤ q1 := by
      rcases b1 with b0 | b1
      · omega
      · exact b1
    have hu : 2 * unit q2 ≤ unit q1 := by
      unfold unit
      have h3 : (2 : ℚ) ^ (unitIndex q2 + 1) ≤ 2 ^ unitIndex q1 :=
        pow_le_pow_right₀ (by norm_num) hgt
      rw [pow_succ] at h3
      rw [← mul_div_assoc]
      apply div_le_div_of_nonneg_right _ (by positivity)
      linarith
    linarith

/-- Rounding a rounded magnitude again returns it. -/
theorem roundMag_idem (q : ℚ) (h0 : 0 ≤ q) (h1 : q < 2 ^ 128) (hr : roundMag q < 2 ^ 128) :
    roundMag (roundMag q) = roundMag q := by
  obtain ⟨a1, b1⟩ := unit_spec q h0 h1
  have hu := unit_pos q
  have hr0 := roundMag_nonneg q h0
  have hle := roundMag_le q h0 h1
  have hdef : roundMag q = roundHalfEven (q / unit q) * unit q := rfl
  rcases lt_or_eq_of_le hle with hlt | heq
  · have hidx : unitIndex (roundMag q) = unitIndex q := by
      apply unitIndex_unique _ hr0 hr
      · exact hlt
      · rcases b1 with b0 | b1
        · exact Or.inl b0
        · exact Or.inr (roundMag_ge q b1)
    have hunit : unit (roundMag q) = unit q := by unfold unit; rw [hidx]
    rw [show roundMag (roundMag q)
        = roundHalfEven (roundMag q / unit (roundMag q)) * unit (roundMag q) from rfl]
    rw [hunit]
    conv_lhs => rw [hdef]
    rw [mul_div_assoc, div_self (ne_of_gt hu), mul_one, roundHalfEven_intCast]
    exact hdef.symm
  · have hidx : unitIndex (roundMag q) = unitIndex q + 1 := by
      apply unitIndex_unique _ hr0 hr
      · have e : (2 : ℚ) ^ (unitIndex q + 1) / 2 ^ 149 = 2 * unit q := by
          unfold unit
          rw [pow_succ]
          ring
        rw [heq, e]
        linarith
      · right
        have e : (2 : ℚ) ^ (unitIndex q + 1) / 2 ^ 149 = 2 * unit q := by
          unfold unit
          rw [pow_succ]
          ring
        rw [heq, e]
        apply le_of_eq
        ring
    have hunit : unit (roundMag q) = 2 * unit q := by
      unfold unit
      rw [hidx, pow_succ]
      ring
    rw [show roundMag (roundMag q)
        = roundHalfEven (roundMag q / unit (roundMag q)) * unit (roundMag q) from rfl]
    rw [hunit, heq]
    have hdiv : 2 ^ 24 * unit q / (2 * unit q) = ((2 ^ 23 : Int) : ℚ) := by
      push_cast
      field_simp
      ring
    rw [hdiv, roundHalfEven_intCast]
    push_cast
    ring

/-- Shape of a rounded magnitude. -/
theorem ofMag_cases (negative : Bool) (q : ℚ) :
    (q < 2 ^ 128 ∧ roundMag q < 2 ^ 128
        ∧ ofMag negative q = fin (if negative then -roundMag q else roundMag q))
      ∨ ofMag negative q = inf negative := by
  unfold ofMag
  by_cases h1 : (2 : ℚ) ^ 128 ≤ q
  · exact Or.inr (by rw [if_pos h1])
  · rw [if_neg h1]
    by_cases h2 : roundMag q < 2 ^ 128
    · exact Or.inl ⟨not_le.1 h1, h2, by rw [if_pos h2]⟩
    · exact Or.inr (by rw [if_neg h2])

theorem round_ne_nan (q : ℚ) : round q ≠ nan := by
  unfold round
  split
  · rcases ofMag_cases false q with ⟨_, _, e⟩ | e <;> rw [e] <;> simp
  · rcases ofMag_cases true (-q) with ⟨_, _, e⟩ | e <;> rw [e] <;> simp

theorem ofMag_of_lt (negative : Bool) (q : ℚ) (h1 : q < 2 ^ 128) (h2 : roundMag q < 2 ^ 128) :
    ofMag negative q = fin (if negative then -roundMag q else roundMag q) := by
  unfold ofMag
  rw [if_neg (not_le.2 h1), if_pos h2]

/-- Rounding is monotone. -/
theorem round_mono {q1 q2 : ℚ} (h : q1 ≤ q2) : le (round q1) (round q2) = true := by
  unfold round
  by_cases h1 : 0 ≤ q1
  · have h2 : 0 ≤ q2 := le_trans h1 h
    rw [if_pos h1, if_pos h2]
    rcases ofMag_cases false q2 with ⟨a2, b2, f2⟩ | f2
    · have hm := roundMag_mono q1 q2 h1 h a2
      rw [f2, ofMag_of_lt false q1 (lt_of_le_of_lt h a2) (lt_of_le_of_lt hm b2)]
      simpa [le] using hm
    · rw [f2]
      rcases ofMag_cases false q1 with ⟨_, _, f1⟩ | f1 <;> rw [f1] <;> simp [le]
  · rw [if_neg h1]
    have h1' : 0 ≤ -q1 := by linarith
    by_cases h2 : 0 ≤ q2
    · rw [if_pos h2]
      have r1 := roundMag_nonneg (-q1) h1'
      have r2 := roundMag_nonneg q2 h2
      rcases ofMag_cases true (-q1) with ⟨_, _, f1⟩ | f1 <;>
        rcases ofMag_cases false q2 with ⟨_, _, f2⟩ | f2 <;>
        rw [f1, f2] <;> simp [le]
      linarith
    · rw [if_neg h2]
      have h2' : 0 ≤ -q2 := by linarith
      rcases ofMag_cases true (-q1) with ⟨a1, b1, f1⟩ | f1
      · have hm := roundMag_mono (-q2) (-q1) h2' (by linarith) a1
        rw [f1, ofMag_of_lt true (-q2) (lt_of_le_of_lt (by linarith) a1)
          (lt_of_le_of_lt hm b1)]
        simpa [le] using hm
      · rw [f1]
        rcases ofMag_cases true (-q2) with ⟨_, _, f2⟩ | f2 <;> rw [f2] <;> simp [le]

/-- Rounding a rounded value again returns it. -/
theorem round_idem {q d : ℚ} (h : round q = fin d) : round d = fin d := by
  unfold round at h
  by_cases hq : 0 ≤ q
  · rw [if_pos hq] at h
    rcases ofMag_cases false q with ⟨a, b, f⟩ | f
    · rw [f] at h
      simp only [Bool.false_eq_true, if_false, fin.injEq] at h
      have h0 := roundMag_nonneg q hq
      have e2 := roundMag_idem q hq a b
      rw [h] at h0 b e2
      unfold round
      rw [if_pos h0, ofMag_of_lt false d b (by rw [e2]; exact b), e2]
      simp
    · rw [f] at h
      exact absurd h (by simp)
  · rw [if_neg hq] at h
    have hq' : 0 ≤ -q := by linarith
    rcases ofMag_cases true (-q) with ⟨a, b, f⟩ | f
    · rw [f] at h
      simp only [if_true, fin.injEq] at h
      have h0 := roundMag_nonneg (-q) hq'
      have e2 := roundMag_idem (-q) hq' a b
      set r := roundMag (-q) with hr
      subst h
      unfold round
      by_cases hr0 : 0 ≤ -r
      · have hz : r = 0 := by linarith
        rw [if_pos hr0, hz, neg_zero]
        rw [hz] at e2 b
        rw [ofMag_of_lt false 0 (by norm_num) (by rw [e2]; norm_num), e2]
        simp
      · rw [if_neg hr0, neg_neg, ofMag_of_lt true r b (by rw [e2]; exact b), e2]
        simp
    · rw [f] at h
      exact absurd h (by simp)

theorem isFloat_round (q : ℚ) : IsFloat (round q) := by
  intro d h
  exact round_idem h

theorem isFloat_add (a b : F32) : IsFloat (add a b) := by
  cases a <;> cases b <;> simp only [add] <;> first
    | exact isFloat_round _
    | (intro d h; split at h <;> simp at h)
    | (intro d h; simp at h)

/-- Adding a non-negative float to a float does not make it smaller. -/
theorem lt_add_of_lt (x d : F32) (c : ℚ) (hc : 0 ≤ c) (hd : IsFloat d)
    (h : lt x d = true) : lt x (add d (fin c)) = true := by
  cases d with
  | nan => cases x <;> simp [lt] at h
  | inf a => simpa [add] using h
  | fin q =>
    have hq : round q = fin q := hd q rfl
    have hm : le (round q) (round (q + c)) = true := round_mono (by linarith)
    rw [hq] at hm
    simp only [add]
    cases hr : round (q + c) with
    | nan => exact absurd hr (round_ne_nan _)
    | inf b =>
      rw [hr] at hm
      cases x with
      | nan => simp [lt] at h
      | inf a => simp [lt, le] at h hm ⊢; simp [h, hm]
      | fin y => simpa [lt, le] using hm
    | fin r =>
      rw [hr] at hm
      cases x with
      | nan => simp [lt] at h
      | inf a => simpa [lt] using h
      | fin y =>
        simp only [lt, le, decide_eq_true_eq] at h hm ⊢
        linarith

theorem round_zero : round 0 = fin 0 := by decide!

theorem round_10000 : round 10000 = fin 10000 := by decide!

theorem le_zero_round {q : ℚ} (h : 0 ≤ q) : le (fin 0) (round q) = true := by
  have := round_mono h
  rwa [round_zero] at this

theorem le_zero_sq (v : F32) (h : v ≠ nan) : le (fin 0) (sq v) = true := by
  cases v with
  | nan => exact absurd rfl h
  | inf a => simp [sq, le]
  | fin a => exact le_zero_round (mul_self_nonneg a)

theorem le_zero_add (a b : F32) (ha : le (fin 0) a = true) (hb : le (fin 0) b = true) :
    le (fin 0) (add a b) = true := by
  cases a with
  | nan => simp [le] at ha
  | inf x =>
    cases b with
    | nan => simp [le] at hb
    | inf y =>
      simp only [le, Bool.not_eq_true'] at ha hb
      subst ha
      subst hb
      simp [add, le]
    | fin q => simpa [add] using ha
  | fin p =>
    cases b with
    | nan => simp [le] at hb
    | inf y => simpa [add] using hb
    | fin q =>
      simp only [le, decide_eq_true_eq] at ha hb
      exact le_zero_round (add_nonneg ha hb)

/-- A non-negative float plus 10000 is above every float below 10000. -/
theorem lt_add_10000 (x d : F32) (hd : le (fin 0) d = true) (hx : lt x (fin 10000) = true) :
    lt x (add d (fin 10000)) = true := by
  cases d with
  | nan => simp [le] at hd
  | inf a =>
    simp only [le, Bool.not_eq_true'] at hd
    subst hd
    cases x <;> simp [lt, add] at hx ⊢
    exact hx
  | fin q =>
    simp only [le, decide_eq_true_eq] at hd
    have hm : le (round 10000) (round (q + 10000)) = true := round_mono (by linarith)
    rw [round_10000] at hm
    simp only [add]
    cases hr : round (q + 10000) with
    | nan => exact absurd hr (round_ne_nan _)
    | inf b =>
      rw [hr] at hm
      cases x <;> simp [lt, le] at hx hm ⊢
      · simp [hx, hm]
      · exact hm
    | fin r =>
      rw [hr] at hm
      cases x with
      | nan => simp [lt] at hx
      | inf a => simpa [lt] using hx
      | fin y =>
        simp only [lt, le, decide_eq_true_eq] at hx hm ⊢
        linarith

theorem sub_mul_ofInt_ne_nan (k : Int) (σ p : ℚ) (hσ : σ ≠ 0) :
    sub (mul (ofInt k) (fin σ)) (fin p) ≠ nan := by
  unfold ofInt sub
  cases h1 : round (k : ℚ) with
  | nan => exact absurd h1 (round_ne_nan _)
  | inf a => simp [mul, hσ, add, neg]
  | fin a =>
    simp only [mul]
    cases h2 : round (a * σ) with
    | nan => exact absurd h2 (round_ne_nan _)
    | inf b => simp [add, neg]
    | fin b =>
      simp only [add, neg]
      exact round_ne_nan _

theorem toInt_div_eq_some (a b : F32) (k : Int) (h : toInt (div a b) = some k) :
    (∃ α, a = fin α) ∧ b ≠ fin 0 := by
  cases a with
  | nan => cases b <;> simp [div, toInt] at h
  | inf x => cases b <;> simp [div, toInt] at h
  | fin α =>
    refine ⟨⟨α, rfl⟩, ?_⟩
    intro hb
    subst hb
    simp only [div, if_true] at h
    split at h <;> simp [toInt] at h

theorem sub_eq_fin (a b : F32) (γ : ℚ) (h : sub a b = fin γ) : ∃ α, a = fin α := by
  cases a with
  | nan => cases b <;> simp [sub, add, neg] at h
  | inf x =>
    cases b with
    | nan => simp [sub, add, neg] at h
    | inf y =>
      simp only [sub, add, neg] at h
      split at h <;> simp at h
    | fin q => simp [sub, add, neg] at h
  | fin α => exact ⟨α, rfl⟩

end F32

/-! ## Lemmas on `TMap` -/

namespace TMap

variable {V : Type}

theorem Contains_iff (m : TMap V) (k : ChunkCoord) : m.Contains k = true ↔ k ∈ m.keys := by
  unfold Contains Find keys
  simp only [Option.isSome_map', List.find?_isSome, beq_iff_eq, List.mem_map]

theorem Contains_eq_false_iff (m : TMap V) (k : ChunkCoord) :
    m.Contains k = false ↔ k ∉ m.keys := by
  rw [← Contains_iff]
  cases m.Contains k <;> simp

theorem entries_Add_of_not_mem (m : TMap V) (k : ChunkCoord) (v : V) (h : k ∉ m.keys) :
    (m.Add k v).entries = m.entries ++ [(k, v)] := by
  have hc : ¬ m.Contains k = true := fun hc => h ((Contains_iff m k).1 hc)
  simp [Add, hc]

theorem keys_Add_of_not_mem (m : TMap V) (k : ChunkCoord) (v : V) (h : k ∉ m.keys) :
    (m.Add k v).keys = m.keys ++ [k] := by
  simp [keys, entries_Add_of_not_mem m k v h]

theorem keys_Add_of_mem (m : TMap V) (k : ChunkCoord) (v : V) (h : k ∈ m.keys) :
    (m.Add k v).keys = m.keys := by
  have hc : m.Contains k = true := (Contains_iff m k).2 h
  unfold keys
  simp only [Add, hc, dite_true, List.map_map]
  apply List.map_congr_left
  intro e _
  by_cases he : e.1 = k <;> simp [he]

theorem mem_keys_Add (m : TMap V) (k : ChunkCoord) (v : V) (c : ChunkCoord) :
    c ∈ (m.Add k v).keys ↔ c = k ∨ c ∈ m.keys := by
  by_cases h : k ∈ m.keys
  · rw [keys_Add_of_mem m k v h]
    constructor
    · exact Or.inr
    · rintro (rfl | hc)
      · exact h
      · exact hc
  · rw [keys_Add_of_not_mem m k v h]
    simp [or_comm]

theorem entries_Remove (m : TMap V) (k : ChunkCoord) :
    (m.Remove k).entries = m.entries.filter (fun e => e.1 != k) := rfl

theorem mem_keys_Remove (m : TMap V) (k c : ChunkCoord) :
    c ∈ (m.Remove k).keys ↔ c ∈ m.keys ∧ c ≠ k := by
  simp only [keys, entries_Remove, List.mem_map, List.mem_filter, bne_iff_ne, ne_eq]
  constructor
  · rintro ⟨e, ⟨he, hne⟩, rfl⟩
    exact ⟨⟨e, he, rfl⟩, hne⟩
  · rintro ⟨⟨e, he, rfl⟩, hne⟩
    exact ⟨e, ⟨he, hne⟩, rfl⟩

theorem Find_eq_some_of_mem (m : TMap V) (k : ChunkCoord) (v : V) (h : (k, v) ∈ m.entries) :
    m.Find k = some v := by
  obtain ⟨entries, nodup⟩ := m
  simp only [Find]
  induction entries with
  | nil => simp at h
  | cons e rest ih =>
    simp only [List.map_cons, List.nodup_cons] at nodup
    by_cases he : e.1 = k
    · simp only [List.find?_cons, he, beq_self_eq_true, Option.map_some']
      rcases List.mem_cons.1 h with h1 | h1
      · rw [← h1]
      · exfalso
        apply nodup.1
        rw [he]
        exact List.mem_map.2 ⟨(k, v), h1, rfl⟩
    · have hne : (e.1 == k) = false := by simpa using he
      simp only [List.find?_cons, hne]
      rcases List.mem_cons.1 h with h1 | h1
      · exfalso
        apply he
        rw [← h1]
      · exact ih nodup.2 h1

theorem values_Empty : (Empty : TMap V).values = [] := rfl

theorem keys_Empty : (Empty : TMap V).keys = [] := rfl

end TMap

/-! ## Lemmas on `spawnChunk` -/

theorem spawnChunk_of_spawned (s : AProceduralTerrain) (x y : Int)
    (h : (x, y) ∈ s.chunkMap.keys) :
    spawnChunk s x y = (s, [Event.lock, Event.chunkMapContains (x, y), Event.unlock]) := by
  have hc : s.chunkMap.Contains (x, y) = true := (TMap.Contains_iff _ _).2 h
  simp [spawnChunk, hc]

theorem spawnChunk_of_not_cached (s : AProceduralTerrain) (x y : Int)
    (h1 : (x, y) ∉ s.chunkMap.keys) (h2 : (x, y) ∉ s.infoMap.keys) :
    spawnChunk s x y = (s, [Event.lock, Event.chunkMapContains (x, y),
      Event.infoMapContains (x, y), Event.unlock]) := by
  have hc1 : ¬ s.chunkMap.Contains (x, y) = true := fun hc => h1 ((TMap.Contains_iff _ _).1 hc)
  have hc2 : ¬ s.infoMap.Contains (x, y) = true := fun hc => h2 ((TMap.Contains_iff _ _).1 hc)
  simp [spawnChunk, hc1, hc2]

theorem spawnChunk_of_cached (s : AProceduralTerrain) (x y : Int)
    (h1 : (x, y) ∉ s.chunkMap.keys) (h2 : (x, y) ∈ s.infoMap.keys) :
    (spawnChunk s x y).1 =
      { s with
        nextObject := s.nextObject + 1,
        world := s.world ++ [{ id := s.nextObject,
                               location := ⟨F32.mul (F32.ofInt x) s.ChunkSize,
                                 F32.mul (F32.ofInt y) s.ChunkSize, 0⟩,
                               section0 := (s.infoMap.Find (x, y)).get
                                 ((TMap.Contains_iff _ _).2 h2),
                               material := s.TerrainMaterial }],
        chunkMap := s.chunkMap.Add (x, y) s.nextObject } := by
  have hc1 : ¬ s.chunkMap.Contains (x, y) = true := fun hc => h1 ((TMap.Contains_iff _ _).1 hc)
  have hc2 : s.infoMap.Contains (x, y) = true := (TMap.Contains_iff _ _).2 h2
  simp [spawnChunk, hc1, hc2]

theorem spawnChunk_toProperties (s : AProceduralTerrain) (x y : Int) :
    (spawnChunk s x y).1.toProperties = s.toProperties := by
  unfold spawnChunk
  simp only
  split
  · rfl
  · split <;> rfl

theorem spawnChunk_infoMap (s : AProceduralTerrain) (x y : Int) :
    (spawnChunk s x y).1.infoMap = s.infoMap := by
  unfold spawnChunk
  simp only
  split
  · rfl
  · split <;> rfl

theorem mem_keys_spawnChunk (s : AProceduralTerrain) (x y : Int) (c : ChunkCoord) :
    c ∈ (spawnChunk s x y).1.chunkMap.keys ↔
      c ∈ s.chunkMap.keys ∨ (c = (x, y) ∧ (x, y) ∈ s.infoMap.keys) := by
  by_cases h1 : (x, y) ∈ s.chunkMap.keys
  · rw [spawnChunk_of_spawned s x y h1]
    constructor
    · exact Or.inl
    · rintro (h | ⟨rfl, _⟩)
      · exact h
      · exact h1
  · by_cases h2 : (x, y) ∈ s.infoMap.keys
    · rw [spawnChunk_of_cached s x y h1 h2]
      simp only [TMap.mem_keys_Add]
      constructor
      · rintro (h | h)
        · exact Or.inr ⟨h, h2⟩
        · exact Or.inl h
      · rintro (h | ⟨h, _⟩)
        · exact Or.inr h
        · exact Or.inl h
    · rw [spawnChunk_of_not_cached s x y h1 h2]
      constructor
      · exact Or.inl
      · rintro (h | ⟨_, h⟩)
        · exact h
        · exact absurd h h2

/-! ## Lemmas on the two passes -/

theorem spawnLoop_toProperties (P : FVector2D) (l : List ChunkCoord) :
    ∀ s : AProceduralTerrain, (spawnLoop P s l).1.toProperties = s.toProperties := by
  induction l with
  | nil => intro s; rfl
  | cons c rest ih =>
    intro s
    simp only [spawnLoop]
    split
    · rw [ih, spawnChunk_toProperties]
    · exact ih s

theorem spawnLoop_infoMap (P : FVector2D) (l : List ChunkCoord) :
    ∀ s : AProceduralTerrain, (spawnLoop P s l).1.infoMap = s.infoMap := by
  induction l with
  | nil => intro s; rfl
  | cons c rest ih =>
    intro s
    simp only [spawnLoop]
    split
    · rw [ih, spawnChunk_infoMap]
    · exact ih s

theorem distanceFromPlayerSquare_congr (s t : AProceduralTerrain) (P : FVector2D)
    (c : ChunkCoord) (h : t.toProperties = s.toProperties) :
    distanceFromPlayerSquare t P c = distanceFromPlayerSquare s P c := by
  unfold distanceFromPlayerSquare
  rw [show t.ChunkSize = s.ChunkSize from congrArg Properties.ChunkSize h]

theorem renderRadiusSquare_congr (s t : AProceduralTerrain)
    (h : t.toProperties = s.toProperties) : renderRadiusSquare t = renderRadiusSquare s := by
  unfold renderRadiusSquare
  rw [show t.RenderRadius = s.RenderRadius from congrArg Properties.RenderRadius h]

theorem spawnTest_congr (s t : AProceduralTerrain) (P : FVector2D) (c : ChunkCoord)
    (h : t.toProperties = s.toProperties) : spawnTest t P c = spawnTest s P c := by
  unfold spawnTest
  rw [distanceFromPlayerSquare_congr s t P c h, renderRadiusSquare_congr s t h]

theorem cullTest_congr (s t : AProceduralTerrain) (P : FVector2D) (c : ChunkCoord)
    (h : t.toProperties = s.toProperties) : cullTest t P c = cullTest s P c := by
  unfold cullTest
  rw [distanceFromPlayerSquare_congr s t P c h, renderRadiusSquare_congr s t h]

/-- The keys after the spawn loop: the old keys, and the visited coordinates that pass the
distance test and are cached. -/
theorem mem_keys_spawnLoop (P : FVector2D) (l : List ChunkCoord) :
    ∀ (s : AProceduralTerrain) (c : ChunkCoord),
      c ∈ (spawnLoop P s l).1.chunkMap.keys ↔
        c ∈ s.chunkMap.keys ∨
          (c ∈ l ∧ spawnTest s P c = true ∧ c ∈ s.infoMap.keys) := by
  induction l with
  | nil => intro s c; simp [spawnLoop]
  | cons d rest ih =>
    intro s c
    simp only [spawnLoop]
    split
    · rename_i hd
      have hp := spawnChunk_toProperties s d.1 d.2
      rw [ih, mem_keys_spawnChunk, spawnChunk_infoMap, spawnTest_congr s _ P c hp]
      constructor
      · rintro ((h | ⟨h, h2⟩) | ⟨h1, h2, h3⟩)
        · exact Or.inl h
        · have hcd : c = d := h
          exact Or.inr ⟨by rw [hcd]; exact List.mem_cons_self _ _, by rw [hcd]; exact hd,
            by rw [hcd]; exact h2⟩
        · exact Or.inr ⟨List.mem_cons_of_mem _ h1, h2, h3⟩
      · rintro (h | ⟨h1, h2, h3⟩)
        · exact Or.inl (Or.inl h)
        · rcases List.mem_cons.1 h1 with h | h
          · refine Or.inl (Or.inr ⟨h, ?_⟩)
            have : ((d.1, d.2) : ChunkCoord) = c := by rw [h]
            rw [this]; exact h3
          · exact Or.inr ⟨h, h2, h3⟩
    · rename_i hd
      rw [ih]
      constructor
      · rintro (h | ⟨h1, h2, h3⟩)
        · exact Or.inl h
        · exact Or.inr ⟨List.mem_cons_of_mem _ h1, h2, h3⟩
      · rintro (h | ⟨h1, h2, h3⟩)
        · exact Or.inl h
        · rcases List.mem_cons.1 h1 with h | h
          · rw [h] at h2; exact absurd h2 hd
          · exact Or.inr ⟨h, h2, h3⟩

/-- What the removal loop leaves when it returns. -/
theorem removeLoop_some (l : List ChunkCoord) :
    ∀ (s : AProceduralTerrain) (r : AProceduralTerrain × List Event),
      removeLoop s l = some r →
        r.1.chunkMap.entries = s.chunkMap.entries.filter (fun e => decide (e.1 ∉ l))
          ∧ r.1.infoMap = s.infoMap ∧ r.1.toProperties = s.toProperties
          ∧ r.1.nextObject = s.nextObject := by
  induction l with
  | nil =>
    intro s r h
    simp only [removeLoop, Option.some.injEq] at h
    subst h
    simp
  | cons chunk rest ih =>
    intro s r h
    simp only [removeLoop] at h
    split at h
    · exact absurd h (by simp)
    · rename_i chunkPtr hfind
      split at h
      · exact absurd h (by simp)
      · rename_i r2 hrest
        simp only [Option.some.injEq] at h
        subst h
        obtain ⟨h1, h2, h3, h4⟩ := ih _ _ hrest
        refine ⟨?_, h2, h3, h4⟩
        simp only [h1, TMap.entries_Remove, List.filter_filter]
        apply List.filter_congr
        intro e _
        by_cases hc : e.1 = chunk <;> simp [hc]

/-- The removal loop returns when it is run over distinct keys of the Spawned table. -/
theorem removeLoop_isSome (l : List ChunkCoord) :
    ∀ s : AProceduralTerrain, l.Nodup → (∀ c ∈ l, c ∈ s.chunkMap.keys) →
      ∃ r, removeLoop s l = some r := by
  induction l with
  | nil => intro s _ _; exact ⟨_, rfl⟩
  | cons chunk rest ih =>
    intro s hnd hsub
    obtain ⟨hnot, hnd2⟩ := List.nodup_cons.1 hnd
    have hmem : chunk ∈ s.chunkMap.keys := hsub chunk (List.mem_cons_self _ _)
    obtain ⟨e, he, hek⟩ := List.mem_map.1 hmem
    have hfind : s.chunkMap.Find chunk = some e.2 :=
      TMap.Find_eq_some_of_mem _ _ _ (by rw [← hek]; exact he)
    obtain ⟨r2, hr2⟩ := ih { s with chunkMap := s.chunkMap.Remove chunk,
                                    world := unregisterAndDestroy s.world e.2 } hnd2 (by
      intro c hc
      rw [TMap.mem_keys_Remove]
      refine ⟨hsub c (List.mem_cons_of_mem _ hc), ?_⟩
      rintro rfl
      exact hnot hc)
    simp only [removeLoop, hfind, hr2]
    exact ⟨_, rfl⟩

theorem chunksToRemove_nodup (s : AProceduralTerrain) (P : FVector2D) :
    (chunksToRemove s P).Nodup :=
  List.Nodup.sublist (List.Sublist.map Prod.fst (List.filter_sublist s.chunkMap.entries))
    s.chunkMap.nodup

theorem mem_chunksToRemove (s : AProceduralTerrain) (P : FVector2D) (c : ChunkCoord) :
    c ∈ chunksToRemove s P ↔ c ∈ s.chunkMap.keys ∧ cullTest s P c = true := by
  simp only [chunksToRemove, TMap.keys, List.mem_map, List.mem_filter]
  constructor
  · rintro ⟨e, ⟨he, ht⟩, rfl⟩
    exact ⟨⟨e, he, rfl⟩, ht⟩
  · rintro ⟨⟨e, he, rfl⟩, ht⟩
    exact ⟨e, ⟨he, ht⟩, rfl⟩

/-- The cull pass always returns, and leaves exactly the entries that fail its test. -/
theorem cullPass_spec (s : AProceduralTerrain) (P : FVector2D) :
    ∃ r, cullPass s P = some r
      ∧ r.1.chunkMap.entries = s.chunkMap.entries.filter (fun e => !cullTest s P e.1)
      ∧ r.1.infoMap = s.infoMap ∧ r.1.toProperties = s.toProperties
      ∧ r.1.nextObject = s.nextObject := by
  obtain ⟨r, hr⟩ := removeLoop_isSome (chunksToRemove s P) s (chunksToRemove_nodup s P)
    (fun c hc => ((mem_chunksToRemove s P c).1 hc).1)
  obtain ⟨h1, h2, h3, h4⟩ := removeLoop_some _ _ _ hr
  refine ⟨(r.1, s.chunkMap.keys.map Event.chunkMapRead ++ [Event.lock] ++ r.2
    ++ [Event.unlock]), by simp only [cullPass, hr], ?_, h2, h3, h4⟩
  simp only [h1]
  apply List.filter_congr
  intro e he
  have hk : e.1 ∈ s.chunkMap.keys := List.mem_map.2 ⟨e, he, rfl⟩
  by_cases ht : cullTest s P e.1 = true
  · have : e.1 ∈ chunksToRemove s P := (mem_chunksToRemove s P e.1).2 ⟨hk, ht⟩
    simp [ht, this]
  · have : e.1 ∉ chunksToRemove s P := fun hm => ht ((mem_chunksToRemove s P e.1).1 hm).2
    simp [ht, this]

theorem mem_intRange (a b x : Int) : x ∈ intRange a b ↔ a ≤ x ∧ x < b := by
  unfold intRange
  rw [List.mem_map]
  constructor
  · rintro ⟨i, hi, rfl⟩
    have hi2 : i < (b - a).toNat := List.mem_range.1 hi
    omega
  · rintro ⟨h1, h2⟩
    refine ⟨(x - a).toNat, List.mem_range.2 ?_, ?_⟩
    · omega
    · omega

/-- What `cullAndSpawnChunks` computes when it returns. -/
theorem cullAndSpawnChunks_eq_some (s : AProceduralTerrain) (P : FVector2D)
    (r : AProceduralTerrain × List Event) (h : cullAndSpawnChunks s P = some r) :
    ∃ w r2, spawnWindow s P = some w ∧ cullPass (spawnLoop P s w).1 P = some r2
      ∧ r = (r2.1, (spawnLoop P s w).2 ++ r2.2
          ++ [Event.chunkMapCompact, Event.chunkMapShrink]) := by
  unfold cullAndSpawnChunks spawnPass at h
  cases hw : spawnWindow s P with
  | none => rw [hw] at h; exact absurd h (by simp)
  | some w =>
    rw [hw] at h
    simp only at h
    cases hc : cullPass (spawnLoop P s w).1 P with
    | none => rw [hc] at h; exact absurd h (by simp)
    | some r2 =>
      rw [hc] at h
      simp only [Option.some.injEq] at h
      exact ⟨w, r2, rfl, hc, h.symm⟩

/-- The call `cullAndSpawnChunks` returns when its four bounds are defined, and then the
Spawned table holds the coordinates that were spawned before or were spawned by the spawn
pass, and that fail the cull test. -/
theorem cullAndSpawnChunks_spec (s : AProceduralTerrain) (P : FVector2D)
    (w : List ChunkCoord) (hw : spawnWindow s P = some w) :
    ∃ r, cullAndSpawnChunks s P = some r
      ∧ r.1.infoMap = s.infoMap ∧ r.1.toProperties = s.toProperties
      ∧ ∀ c, c ∈ r.1.chunkMap.keys ↔
          (c ∈ s.chunkMap.keys ∨
            (c ∈ w ∧ spawnTest s P c = true ∧ c ∈ s.infoMap.keys))
          ∧ cullTest s P c = false := by
  obtain ⟨r2, hr2, h1, h2, h3, _⟩ := cullPass_spec (spawnLoop P s w).1 P
  have hp : (spawnLoop P s w).1.toProperties = s.toProperties := spawnLoop_toProperties _ _ _
  refine ⟨(r2.1, (spawnLoop P s w).2 ++ r2.2 ++ [Event.chunkMapCompact, Event.chunkMapShrink]),
    by simp only [cullAndSpawnChunks, spawnPass, hw, hr2], ?_, ?_, ?_⟩
  · exact h2.trans (spawnLoop_infoMap _ _ _)
  · exact h3.trans hp
  · intro c
    rw [← mem_keys_spawnLoop P w s c, ← cullTest_congr s _ P c hp]
    show c ∈ r2.1.chunkMap.keys ↔ c ∈ (spawnLoop P s w).1.chunkMap.keys ∧ _
    simp only [TMap.keys, h1, List.mem_map, List.mem_filter, Bool.not_eq_true']
    constructor
    · rintro ⟨e, ⟨he, ht⟩, rfl⟩
      exact ⟨⟨e, he, rfl⟩, ht⟩
    · rintro ⟨⟨e, he, rfl⟩, ht⟩
      exact ⟨e, ⟨he, ht⟩, rfl⟩

/-- The coordinates left by a call that returned fail the cull test, and every coordinate
that was spawned before the call and fails the cull test is left. -/
theorem cullAndSpawnChunks_keys (s : AProceduralTerrain) (P : FVector2D)
    (r : AProceduralTerrain × List Event) (h : cullAndSpawnChunks s P = some r) :
    (∀ c ∈ r.1.chunkMap.keys, cullTest s P c = false)
      ∧ (∀ c ∈ s.chunkMap.keys, cullTest s P c = false → c ∈ r.1.chunkMap.keys) := by
  obtain ⟨w, _, hw, _, _⟩ := cullAndSpawnChunks_eq_some s P r h
  obtain ⟨r2, hr2, _, _, hkeys⟩ := cullAndSpawnChunks_spec s P w hw
  have hrr : r2 = r := Option.some.inj (hr2.symm.trans h)
  subst hrr
  exact ⟨fun c hc => ((hkeys c).1 hc).2, fun c hc ht => (hkeys c).2 ⟨Or.inl hc, ht⟩⟩

theorem spawnWindow_isSome (s : AProceduralTerrain) (P : FVector2D)
    (h1 : (xStart s P).isSome = true) (h2 : (xEnd s P).isSome = true)
    (h3 : (yStart s P).isSome = true) (h4 : (yEnd s P).isSome = true) :
    ∃ w, spawnWindow s P = some w := by
  obtain ⟨a, ha⟩ := Option.isSome_iff_exists.1 h1
  obtain ⟨b, hb⟩ := Option.isSome_iff_exists.1 h2
  obtain ⟨c, hc⟩ := Option.isSome_iff_exists.1 h3
  obtain ⟨d, hd⟩ := Option.isSome_iff_exists.1 h4
  exact ⟨(intRange a b).flatMap (fun x => (intRange c d).map (fun y => (x, y))),
    by simp only [spawnWindow, ha, hb, hc, hd]⟩

theorem spawnWindow_xStart (s : AProceduralTerrain) (P : FVector2D) (w : List ChunkCoord)
    (h : spawnWindow s P = some w) :
    (∃ k, xStart s P = some k) ∧ (∃ k, yStart s P = some k) := by
  unfold spawnWindow at h
  cases h1 : xStart s P <;> cases h2 : xEnd s P <;> cases h3 : yStart s P <;>
    cases h4 : yEnd s P <;> simp [h1, h2, h3, h4] at h ⊢

/-! ## The invariant of reachable states -/

theorem TMap.values_Add_of_not_mem {V : Type} (m : TMap V) (k : ChunkCoord) (v : V)
    (h : k ∉ m.keys) : (m.Add k v).values = m.values ++ [v] := by
  simp [TMap.values, TMap.entries_Add_of_not_mem m k v h]

theorem Consistent_spawnChunk (s : AProceduralTerrain) (x y : Int) (h : Consistent s) :
    Consistent (spawnChunk s x y).1 := by
  obtain ⟨h1, h2, h3⟩ := h
  by_cases hs : (x, y) ∈ s.chunkMap.keys
  · rw [spawnChunk_of_spawned s x y hs]
    exact ⟨h1, h2, h3⟩
  · by_cases hc : (x, y) ∈ s.infoMap.keys
    · rw [spawnChunk_of_cached s x y hs hc]
      refine ⟨?_, ?_, ?_⟩
      · intro c hmem
        rcases (TMap.mem_keys_Add _ _ _ _).1 hmem with rfl | hmem
        · exact hc
        · exact h1 c hmem
      · show (s.chunkMap.Add (x, y) s.nextObject).values.Nodup
        rw [TMap.values_Add_of_not_mem _ _ _ hs, List.nodup_append]
        refine ⟨h2, List.nodup_singleton _, ?_⟩
        intro a ha hb
        rw [List.mem_singleton] at hb
        subst hb
        exact absurd (h3 _ ha) (lt_irrefl _)
      · intro a ha
        have ha2 : a ∈ (s.chunkMap.Add (x, y) s.nextObject).values := ha
        rw [TMap.values_Add_of_not_mem _ _ _ hs, List.mem_append, List.mem_singleton] at ha2
        show a < s.nextObject + 1
        rcases ha2 with ha2 | rfl
        · exact Nat.lt_succ_of_lt (h3 a ha2)
        · exact Nat.lt_succ_self _
    · rw [spawnChunk_of_not_cached s x y hs hc]
      exact ⟨h1, h2, h3⟩

theorem Consistent_spawnLoop (P : FVector2D) (l : List ChunkCoord) :
    ∀ s : AProceduralTerrain, Consistent s → Consistent (spawnLoop P s l).1 := by
  induction l with
  | nil => intro s h; exact h
  | cons c rest ih =>
    intro s h
    simp only [spawnLoop]
    split
    · exact ih _ (Consistent_spawnChunk s c.1 c.2 h)
    · exact ih s h

theorem Consistent_cullPass (s : AProceduralTerrain) (P : FVector2D)
    (r : AProceduralTerrain × List Event) (hr : cullPass s P = some r)
    (h : Consistent s) : Consistent r.1 := by
  obtain ⟨r2, hr2, e1, e2, _, e4⟩ := cullPass_spec s P
  have hrr : r2 = r := Option.some.inj (hr2.symm.trans hr)
  subst hrr
  obtain ⟨h1, h2, h3⟩ := h
  have hsub : List.Sublist r2.1.chunkMap.entries s.chunkMap.entries := by
    rw [e1]; exact List.filter_sublist _
  refine ⟨?_, ?_, ?_⟩
  · intro c hc
    rw [e2]
    exact h1 c ((List.Sublist.map Prod.fst hsub).subset hc)
  · exact List.Nodup.sublist (List.Sublist.map Prod.snd hsub) h2
  · intro a ha
    rw [e4]
    exact h3 a ((List.Sublist.map Prod.snd hsub).subset ha)

theorem Consistent_cullAndSpawnChunks (s : AProceduralTerrain) (P : FVector2D)
    (r : AProceduralTerrain × List Event) (hr : cullAndSpawnChunks s P = some r)
    (h : Consistent s) : Consistent r.1 := by
  obtain ⟨w, r2, _, hr2, e⟩ := cullAndSpawnChunks_eq_some s P r hr
  subst e
  exact Consistent_cullPass _ P r2 hr2 (Consistent_spawnLoop P w s h)

theorem Consistent_PostEditChangeProperty (s : AProceduralTerrain) :
    Consistent (PostEditChangeProperty s).1 := by
  refine ⟨?_, ?_, ?_⟩
  · intro c hc
    exact absurd hc (List.not_mem_nil c)
  · exact List.nodup_nil
  · intro a ha
    exact absurd ha (List.not_mem_nil a)

theorem Consistent_workerInsert (s : AProceduralTerrain) (c : ChunkCoord) (info : ChunkInfo)
    (h : Consistent s) : Consistent (workerInsert s c info).1 := by
  obtain ⟨h1, h2, h3⟩ := h
  refine ⟨?_, h2, h3⟩
  intro d hd
  exact (TMap.mem_keys_Add _ _ _ _).2 (Or.inr (h1 d hd))

/-- Every reachable state satisfies the invariant. -/
theorem Reachable.consistent {s : AProceduralTerrain} (h : Reachable s) : Consistent s := by
  induction h with
  | start props seed noiseFrequency worker pawnLocation =>
    refine ⟨?_, ?_, ?_⟩
    · intro c hc
      exact absurd hc (List.not_mem_nil c)
    · exact List.nodup_nil
    · intro a ha
      exact absurd ha (List.not_mem_nil a)
  | spawnChunk s x y _ ih => exact Consistent_spawnChunk s x y ih
  | cullAndSpawnChunks s P r _ hr ih => exact Consistent_cullAndSpawnChunks s P r hr ih
  | cullPass s P r _ hr ih => exact Consistent_cullPass s P r hr ih
  | tick s pawn r _ hr ih => exact Consistent_cullAndSpawnChunks _ _ r hr ih
  | postEdit s _ _ => exact Consistent_PostEditChangeProperty s
  | edit s props _ _ => exact Consistent_PostEditChangeProperty _
  | worker s c info _ ih => exact Consistent_workerInsert s c info ih

/-! ## Lemmas on the reset -/

theorem count_unregister_flatMap (l : List (ChunkCoord × MeshHandle)) (h : MeshHandle) :
    (l.flatMap (fun e => [Event.chunkMapRead e.1, Event.unregisterComponent e.2,
        Event.destroyComponent e.2])).count (Event.unregisterComponent h)
      = (l.map Prod.snd).count h := by
  induction l with
  | nil => rfl
  | cons e rest ih =>
    simp only [List.flatMap_cons, List.count_append, ih, List.map_cons, List.count_cons]
    by_cases he : e.2 = h <;> simp [he, Nat.add_comm]

theorem count_destroy_flatMap (l : List (ChunkCoord × MeshHandle)) (h : MeshHandle) :
    (l.flatMap (fun e => [Event.chunkMapRead e.1, Event.unregisterComponent e.2,
        Event.destroyComponent e.2])).count (Event.destroyComponent h)
      = (l.map Prod.snd).count h := by
  induction l with
  | nil => rfl
  | cons e rest ih =>
    simp only [List.flatMap_cons, List.count_append, ih, List.map_cons, List.count_cons]
    by_cases he : e.2 = h <;> simp [he, Nat.add_comm]

theorem mem_foldl_unregisterAndDestroy (hs : List MeshHandle) :
    ∀ (world : List UProceduralMeshComponent) (m : UProceduralMeshComponent),
      m ∈ hs.foldl unregisterAndDestroy world ↔ m ∈ world ∧ m.id ∉ hs := by
  induction hs with
  | nil => intro world m; simp
  | cons h rest ih =>
    intro world m
    simp only [List.foldl_cons, ih, unregisterAndDestroy, List.mem_filter, bne_iff_ne, ne_eq,
      List.mem_cons, not_or]
    tauto

/-! ## The scenarios -/

theorem scenarioSpawned_reachable (chunkSize renderRadius : F32) (x y : Int) :
    Reachable (scenarioSpawned chunkSize renderRadius x y) :=
  Reachable.spawnChunk _ x y (Reachable.worker _ (x, y) emptyInfo (Reachable.start _ _ _ _ _))

/-! ## Lemmas on the coordination lock -/

theorem lockScan_append (t1 t2 : List Event) :
    ∀ held, lockScan held (t1 ++ t2) = (lockScan held t1).bind (fun h => lockScan h t2) := by
  induction t1 with
  | nil => intro held; rfl
  | cons e rest ih =>
    intro held
    cases e <;> cases held <;> simp [lockScan, ih, Event.needsLock]

theorem lockScan_spawnChunk (s : AProceduralTerrain) (x y : Int) :
    lockScan false (spawnChunk s x y).2 = some false := by
  unfold spawnChunk
  simp only
  split
  · rfl
  · split <;> rfl

theorem lockScan_spawnLoop (P : FVector2D) (l : List ChunkCoord) :
    ∀ s : AProceduralTerrain, lockScan false (spawnLoop P s l).2 = some false := by
  induction l with
  | nil => intro s; rfl
  | cons c rest ih =>
    intro s
    simp only [spawnLoop]
    split
    · simp only [lockScan_append, lockScan_spawnChunk, Option.some_bind, ih]
    · exact ih s

theorem lockScan_removeLoop (l : List ChunkCoord) :
    ∀ (s : AProceduralTerrain) (r : AProceduralTerrain × List Event),
      removeLoop s l = some r → lockScan true r.2 = some true := by
  induction l with
  | nil =>
    intro s r h
    simp only [removeLoop, Option.some.injEq] at h
    subst h
    rfl
  | cons chunk rest ih =>
    intro s r h
    simp only [removeLoop] at h
    split at h
    · exact absurd h (by simp)
    · split at h
      · exact absurd h (by simp)
      · rename_i r2 hrest
        simp only [Option.some.injEq] at h
        subst h
        have e1 : ∀ h : MeshHandle, lockScan true [Event.chunkMapFind chunk,
            Event.chunkMapRemove chunk, Event.unregisterComponent h,
            Event.destroyComponent h] = some true := by
          intro h
          simp [lockScan, Event.needsLock]
        simp only [lockScan_append, e1, Option.some_bind, ih _ _ hrest]

theorem lockScan_reads (l : List ChunkCoord) (held : Bool) :
    lockScan held (l.map Event.chunkMapRead) = some held := by
  induction l with
  | nil => rfl
  | cons c rest ih => simpa [lockScan, Event.needsLock] using ih

theorem lockScan_destroyAll (l : List (ChunkCoord × MeshHandle)) :
    lockScan true (l.flatMap (fun e => [Event.chunkMapRead e.1, Event.unregisterComponent e.2,
      Event.destroyComponent e.2])) = some true := by
  induction l with
  | nil => rfl
  | cons e rest ih =>
    have e1 : lockScan true [Event.chunkMapRead e.1, Event.unregisterComponent e.2,
        Event.destroyComponent e.2] = some true := by
      simp [lockScan, Event.needsLock]
    simp only [List.flatMap_cons, lockScan_append, e1, Option.some_bind, ih]

theorem lockScan_cullAndSpawnChunks (s : AProceduralTerrain) (P : FVector2D)
    (r : AProceduralTerrain × List Event) (h : cullAndSpawnChunks s P = some r) :
    lockScan false r.2 = some false := by
  obtain ⟨w, r2, _, hr2, e⟩ := cullAndSpawnChunks_eq_some s P r h
  subst e
  simp only [cullPass] at hr2
  split at hr2
  · exact absurd hr2 (by simp)
  · rename_i r3 hr3
    simp only [Option.some.injEq] at hr2
    subst hr2
    · have h1 : lockScan false (spawnLoop P s w).2 = some false := lockScan_spawnLoop _ _ _
      have h3 := lockScan_removeLoop _ _ _ hr3
      have e1 : lockScan false [Event.lock] = some true := by simp [lockScan]
      have e2 : lockScan true [Event.unlock] = some false := by simp [lockScan]
      have e3 : lockScan false [Event.chunkMapCompact, Event.chunkMapShrink] = some false := by
        simp [lockScan, Event.needsLock]
      simp only [lockScan_append, h1, Option.some_bind, lockScan_reads, e1, h3, e2, e3]

theorem lockScan_PostEditChangeProperty (s : AProceduralTerrain) :
    lockScan false (PostEditChangeProperty s).2 = some false := by
  have e1 : lockScan false [Event.lock] = some true := by simp [lockScan]
  have e2 : lockScan true [Event.chunkMapEmpty, Event.infoMapEmpty, Event.unlock]
      = some false := by simp [lockScan, Event.needsLock]
  simp only [PostEditChangeProperty, lockScan_append, e1, Option.some_bind,
    lockScan_destroyAll, e2]

theorem spawnChunk_critical_section (s : AProceduralTerrain) (x y : Int) :
    ∃ body, (spawnChunk s x y).2 = Event.lock :: (body ++ [Event.unlock])
      ∧ Event.unlock ∉ body := by
  unfold spawnChunk
  simp only
  split
  · exact ⟨[Event.chunkMapContains (x, y)], rfl, by simp⟩
  · split
    · exact ⟨_ :: _ :: _ :: _ :: _ :: _ :: _ :: _ :: [_], rfl, by simp⟩
    · exact ⟨[Event.chunkMapContains (x, y), Event.infoMapContains (x, y)], rfl, by simp⟩

theorem eventsOf_cons (t u : Thread) (e : Event) (tr : List (Thread × Event)) :
    eventsOf t ((u, e) :: tr) = if u = t then e :: eventsOf t tr else eventsOf t tr := by
  by_cases h : u = t <;> simp [eventsOf, List.filter_cons, h]

theorem eventsOf_append (t : Thread) (a b : List (Thread × Event)) :
    eventsOf t (a ++ b) = eventsOf t a ++ eventsOf t b := by
  simp [eventsOf]

theorem exclusive_tail (o : Option Thread) (te : Thread × Event) (r : List (Thread × Event))
    (h : exclusive o (te :: r) = true) : ∃ o2, exclusive o2 r = true := by
  obtain ⟨t, e⟩ := te
  cases e <;> simp only [exclusive, Bool.and_eq_true] at h <;> exact ⟨_, h.2⟩

/-- While the foreground thread is inside the critical section, the other thread performs
no event that needs the lock until the foreground thread has released it. -/
theorem exclusive_inside (e : Event) (he : e.needsLock = true) (b : List (Thread × Event)) :
    ∀ a : List (Thread × Event),
      exclusive (some Thread.foreground) (a ++ (Thread.background, e) :: b) = true →
        Event.unlock ∈ eventsOf Thread.foreground a := by
  intro a
  induction a with
  | nil =>
    intro h
    exfalso
    cases e <;> simp [exclusive, Event.needsLock] at h he
  | cons te rest ih =>
    intro h
    obtain ⟨t, e2⟩ := te
    rw [eventsOf_cons]
    cases e2 with
    | lock => simp [exclusive] at h
    | unlock =>
      simp only [List.cons_append, exclusive, Bool.and_eq_true, beq_iff_eq,
        Option.some.injEq] at h
      rw [if_pos h.1.symm]
      exact List.mem_cons_self _ _
    | _ =>
      simp only [List.cons_append, exclusive, Bool.and_eq_true] at h
      have := ih h.2
      split
      · exact List.mem_cons_of_mem _ this
      · exact this

/-- Once the foreground thread has taken the lock, the other thread performs no event that
needs the lock until the foreground thread has released it. -/
theorem exclusive_after_lock (e : Event) (he : e.needsLock = true)
    (b : List (Thread × Event)) :
    ∀ (a : List (Thread × Event)) (o : Option Thread) (body : List Event),
      exclusive o (a ++ (Thread.background, e) :: b) = true →
        eventsOf Thread.foreground a = Event.lock :: body → Event.unlock ∈ body := by
  intro a
  induction a with
  | nil =>
    intro o body _ h2
    simp [eventsOf] at h2
  | cons te rest ih =>
    intro o body h1 h2
    obtain ⟨t, e2⟩ := te
    rw [eventsOf_cons] at h2
    by_cases ht : t = Thread.foreground
    · rw [if_pos ht] at h2
      obtain ⟨h3, h4⟩ := List.cons.inj h2
      subst h3
      subst ht
      simp only [List.cons_append, exclusive, Bool.and_eq_true] at h1
      rw [← h4]
      exact exclusive_inside e he b rest h1.2
    · rw [if_neg ht] at h2
      obtain ⟨o2, ho2⟩ := exclusive_tail o (t, e2) _ h1
      exact ih o2 body ho2 h2


/-! ## Distances and the scenarios -/

theorem distanceFromPlayerSquare_isFloat (s : AProceduralTerrain) (P : FVector2D)
    (c : ChunkCoord) : F32.IsFloat (distanceFromPlayerSquare s P c) :=
  F32.isFloat_add _ _

theorem distanceFromPlayerSquare_nonneg (s : AProceduralTerrain) (P : FVector2D)
    (c : ChunkCoord) (σ px py : ℚ) (hS : s.ChunkSize = F32.fin σ) (hσ : σ ≠ 0)
    (hx : P.X = F32.fin px) (hy : P.Y = F32.fin py) :
    F32.le (F32.fin 0) (distanceFromPlayerSquare s P c) = true := by
  unfold distanceFromPlayerSquare
  rw [hS, hx, hy]
  exact F32.le_zero_add _ _
    (F32.le_zero_sq _ (F32.sub_mul_ofInt_ne_nan _ _ _ hσ))
    (F32.le_zero_sq _ (F32.sub_mul_ofInt_ne_nan _ _ _ hσ))

/-- A call of `cullAndSpawnChunks` that returns was made with a finite observer position
and a `ChunkSize` that is not zero. -/
theorem cullAndSpawnChunks_finite (s : AProceduralTerrain) (P : FVector2D)
    (r : AProceduralTerrain × List Event) (h : cullAndSpawnChunks s P = some r) :
    (∃ px, P.X = F32.fin px) ∧ (∃ py, P.Y = F32.fin py) ∧ s.ChunkSize ≠ F32.fin 0 := by
  obtain ⟨w, _, hw, _, _⟩ := cullAndSpawnChunks_eq_some s P r h
  obtain ⟨⟨kx, hkx⟩, ⟨ky, hky⟩⟩ := spawnWindow_xStart s P w hw
  unfold xStart at hkx
  unfold yStart at hky
  obtain ⟨⟨α, hα⟩, h0⟩ := F32.toInt_div_eq_some _ _ _ hkx
  obtain ⟨⟨β, hβ⟩, _⟩ := F32.toInt_div_eq_some _ _ _ hky
  exact ⟨F32.sub_eq_fin _ _ _ hα, F32.sub_eq_fin _ _ _ hβ, h0⟩

theorem cacheBox_covers (x y : Int) (hx : -4 ≤ x ∧ x ≤ 4) (hy : -4 ≤ y ∧ y ≤ 4) :
    (x, y) ∈ (scenario 100 280 (cacheBox 4)).infoMap.keys := by
  have hk : (scenario 100 280 (cacheBox 4)).infoMap.keys = cacheBox 4 := by decide!
  rw [hk]
  simp only [cacheBox, List.mem_flatMap, List.mem_map, Prod.mk.injEq, mem_intRange]
  exact ⟨x, ⟨by omega, by omega⟩, y, ⟨by omega, by omega⟩, rfl, rfl⟩

/-! ## The claims -/

/-- C1. In every state reachable from start-up by `spawnChunk` calls, `cullAndSpawnChunks`
ticks, `PostEditChangeProperty` resets and worker insertions into the Chunk Cache, every
key of the Spawned table `chunkMap` is a key of the Chunk Cache `infoMap`. -/
theorem spawned_subset_cache (s : AProceduralTerrain) (h : Reachable s) :
    ∀ c ∈ s.chunkMap.keys, c ∈ s.infoMap.keys :=
  h.consistent.1

/-- C1, witness: after start-up, a worker insertion of `(0, 0)` and `spawnChunk (0, 0)` the
state is reachable, `(0, 0)` is spawned, and it is cached. -/
theorem spawned_subset_cache_witness :
    Reachable (scenarioSpawned 100 250 0 0)
      ∧ (0, 0) ∈ (scenarioSpawned 100 250 0 0).chunkMap.keys
      ∧ (0, 0) ∈ (scenarioSpawned 100 250 0 0).infoMap.keys :=
  ⟨scenarioSpawned_reachable 100 250 0 0, by decide!,
    spawned_subset_cache _ (scenarioSpawned_reachable 100 250 0 0) (0, 0) (by decide!)⟩

/-- C2 (evaluation at the failing input). With `ChunkSize = 100`, `RenderRadius = 280`
(so `GenerateRadius = 420`), the observer at the origin and the cache holding every
coordinate whose center lies within `GenerateRadius` of the observer, chunk `(2, 0)` is
within `RenderRadius` by its center `(250, 50)` (`65000 < 78400`) and by its corner
`(200, 0)` (`40000 < 78400`, and `40000 + 10000` is not greater than `78400`), and one
call of `cullAndSpawnChunks` does not spawn it: the loops run `x` from `xStart = -2` while
`x < xEnd = 2`, so `x = 2` is never visited, while the mirror chunk `(-2, 0)` at the same
corner distance is spawned. -/
theorem coverage_misses_chunk_at_xEnd :
    (scenario 100 280 (cacheBox 4)).ChunkSize = F32.fin 100
      ∧ (scenario 100 280 (cacheBox 4)).RenderRadius = F32.fin 280
      ∧ (scenario 100 280 (cacheBox 4)).infoWorker.GenerateRadius = F32.fin 420
      ∧ origin = ⟨F32.fin 0, F32.fin 0⟩
      ∧ (∀ c, specCenterDistanceSquare 100 0 0 c ≤ 420 ^ 2 →
          c ∈ (scenario 100 280 (cacheBox 4)).infoMap.keys)
      ∧ specCenterDistanceSquare 100 0 0 (2, 0) = 65000
      ∧ (65000 : ℚ) < 280 ^ 2
      ∧ distanceFromPlayerSquare (scenario 100 280 (cacheBox 4)) origin (2, 0) = F32.fin 40000
      ∧ renderRadiusSquare (scenario 100 280 (cacheBox 4)) = F32.fin 78400
      ∧ spawnTest (scenario 100 280 (cacheBox 4)) origin (2, 0) = true
      ∧ cullTest (scenario 100 280 (cacheBox 4)) origin (2, 0) = false
      ∧ xStart (scenario 100 280 (cacheBox 4)) origin = some (-2)
      ∧ xEnd (scenario 100 280 (cacheBox 4)) origin = some 2
      ∧ (cullAndSpawnChunks (scenario 100 280 (cacheBox 4)) origin).map
          (fun r => (decide ((2, 0) ∈ r.1.chunkMap.keys),
            decide ((-2, 0) ∈ r.1.chunkMap.keys))) = some (false, true) := by
  refine ⟨by decide!, by decide!, by decide!, by decide!, ?_, by decide!, by norm_num,
    by decide!, by decide!, by decide!, by decide!, by decide!, by decide!, by decide!⟩
  rintro ⟨x, y⟩ h
  simp only [specCenterDistanceSquare, sub_zero] at h
  have h2 : (((2 * x + 1) ^ 2 + (2 * y + 1) ^ 2 : Int) : ℚ) ≤ 70 + 56 / 100 := by
    push_cast
    linarith
  have h3 : (((2 * x + 1) ^ 2 + (2 * y + 1) ^ 2 : Int) : ℚ) < ((71 : Int) : ℚ) := by
    push_cast at h2 ⊢
    linarith
  have h4 : (2 * x + 1) ^ 2 + (2 * y + 1) ^ 2 < 71 := by exact_mod_cast h3
  apply cacheBox_covers
  · constructor <;> nlinarith [sq_nonneg (2 * y + 1)]
  · constructor <;> nlinarith [sq_nonneg (2 * x + 1)]

/-- C3 (evaluation at the failing input). With `ChunkSize = 100`, `RenderRadius = 240`,
the observer at the origin, chunk `(-2, -1)` cached and nothing spawned, one call of
`cullAndSpawnChunks` spawns `(-2, -1)` in its spawn pass (`50000 < 57600`) and removes it
in its cull pass (`50000 + 10000 > 57600`): the mesh component is created, registered,
unregistered and destroyed within the same call. -/
theorem spawn_then_cull_same_tick :
    (scenario 100 240 [(-2, -1)]).chunkMap.entries = []
      ∧ distanceFromPlayerSquare (scenario 100 240 [(-2, -1)]) origin (-2, -1) = 50000
      ∧ renderRadiusSquare (scenario 100 240 [(-2, -1)]) = 57600
      ∧ (spawnPass (scenario 100 240 [(-2, -1)]) origin).map (fun r => r.1.chunkMap.entries)
        = some [((-2, -1), 0)]
      ∧ (cullAndSpawnChunks (scenario 100 240 [(-2, -1)]) origin).map
          (fun r => (r.1.chunkMap.entries, r.2.filter Event.isMeshCall))
        = some ([], [Event.newObject 0, Event.setWorldLocation 0 ⟨-200, -100, 0⟩,
            Event.createMeshSection 0 emptyInfo, Event.setMaterial 0 0,
            Event.registerComponent 0, Event.unregisterComponent 0,
            Event.destroyComponent 0]) := by
  decide!

/-- C4 (amended). Cull rule: the cull pass always returns and removes from the Spawned
table exactly the entries for which the test of the code, evaluated in binary32 as the
code evaluates it, is true: the squared distance from the world origin corner
`(x * ChunkSize, y * ChunkSize)` of the chunk to `P`, plus 10000, is greater than
`RenderRadius^2`.  Every other entry stays, in place and with its mesh handle.  Hence a
spawned chunk whose computed squared corner distance is greater than the computed
`RenderRadius^2` is gone when the tick returns; and the tick returns when its four loop
bounds are defined. -/
theorem cull_rule (s : AProceduralTerrain) (P : FVector2D) :
    (∃ r, cullPass s P = some r
        ∧ r.1.chunkMap.entries = s.chunkMap.entries.filter (fun e =>
            !F32.lt (renderRadiusSquare s)
              (F32.add (distanceFromPlayerSquare s P e.1) (F32.fin 10000))))
      ∧ (∀ r, cullAndSpawnChunks s P = some r →
          ∀ c ∈ s.chunkMap.keys,
            F32.lt (renderRadiusSquare s) (distanceFromPlayerSquare s P c) = true →
            c ∉ r.1.chunkMap.keys)
      ∧ ((xStart s P).isSome = true → (xEnd s P).isSome = true →
          (yStart s P).isSome = true → (yEnd s P).isSome = true →
          ∃ r, cullAndSpawnChunks s P = some r) := by
  refine ⟨?_, ?_, ?_⟩
  · obtain ⟨r, hr, h1, _⟩ := cullPass_spec s P
    exact ⟨r, hr, h1⟩
  · intro r hr c _ hfar hmem
    have h1 : cullTest s P c = false := (cullAndSpawnChunks_keys s P r hr).1 c hmem
    have h2 : cullTest s P c = true :=
      F32.lt_add_of_lt _ _ 10000 (by norm_num) (distanceFromPlayerSquare_isFloat s P c) hfar
    rw [h1] at h2
    exact absurd h2 (by simp)
  · intro h1 h2 h3 h4
    obtain ⟨w, hw⟩ := spawnWindow_isSome s P h1 h2 h3 h4
    obtain ⟨r, hr, _⟩ := cullAndSpawnChunks_spec s P w hw
    exact ⟨r, hr⟩

/-- C4, witness: chunk `(-2, -2)` spawned, `ChunkSize = 100`, `RenderRadius = 250`, the
observer at the origin: the computed squared corner distance `80000` is greater than
`62500`, the tick returns, and the chunk is gone after it. -/
theorem cull_rule_witness :
    (-2, -2) ∈ (scenarioSpawned 100 250 (-2) (-2)).chunkMap.keys
      ∧ F32.lt (renderRadiusSquare (scenarioSpawned 100 250 (-2) (-2)))
          (distanceFromPlayerSquare (scenarioSpawned 100 250 (-2) (-2)) origin (-2, -2)) = true
      ∧ ∃ r, cullAndSpawnChunks (scenarioSpawned 100 250 (-2) (-2)) origin = some r
          ∧ (-2, -2) ∉ r.1.chunkMap.keys :=
  ⟨by decide!, by decide!,
    match (cull_rule (scenarioSpawned 100 250 (-2) (-2)) origin).2.2
      (by decide!) (by decide!) (by decide!) (by decide!) with
    | ⟨r, hr⟩ => ⟨r, hr, (cull_rule (scenarioSpawned 100 250 (-2) (-2)) origin).2.1 r hr
        (-2, -2) (by decide!) (by decide!)⟩⟩

/-- C4, counterexample.  By chunk center: with chunk `(-2, -2)` spawned, `ChunkSize = 100`,
`RenderRadius = 250` and the observer at the origin, the squared distance of the center
plus the margin is `45000 + 10000 ≤ 62500`, so the rule by center keeps the entry, and the
cull pass removes it (`80000 + 10000 > 62500` from the corner).  By exact arithmetic: with
chunk `(8, 0)` spawned, `ChunkSize = 65536` and `RenderRadius = 524288`, the exact squared
corner distance plus the margin `2^38 + 10000` is greater than `RenderRadius^2 = 2^38`,
and the cull pass keeps the entry: in binary32 the sum `2^38 + 10000` rounds to `2^38`. -/
theorem cull_rule_counterexample :
    ((scenarioSpawned 100 250 (-2) (-2)).ChunkSize = F32.fin 100
        ∧ (scenarioSpawned 100 250 (-2) (-2)).RenderRadius = F32.fin 250
        ∧ (-2, -2) ∈ (scenarioSpawned 100 250 (-2) (-2)).chunkMap.keys
        ∧ ¬ (specCenterDistanceSquare 100 0 0 (-2, -2) + 10000 > 250 ^ 2)
        ∧ (cullPass (scenarioSpawned 100 250 (-2) (-2)) origin).map
            (fun r => r.1.chunkMap.keys) = some [])
      ∧ ((scenarioSpawned 65536 524288 8 0).ChunkSize = F32.fin 65536
        ∧ (scenarioSpawned 65536 524288 8 0).RenderRadius = F32.fin 524288
        ∧ exactCornerDistanceSquare 65536 0 0 (8, 0) + 10000 > 524288 ^ 2
        ∧ F32.add (distanceFromPlayerSquare (scenarioSpawned 65536 524288 8 0) origin (8, 0))
            (F32.fin 10000) = F32.fin (2 ^ 38)
        ∧ renderRadiusSquare (scenarioSpawned 65536 524288 8 0) = F32.fin (2 ^ 38)
        ∧ (cullPass (scenarioSpawned 65536 524288 8 0) origin).map
            (fun r => r.1.chunkMap.keys) = some [(8, 0)]) := by
  refine ⟨⟨by decide!, by decide!, by decide!, by decide!, by decide!⟩,
    ⟨by decide!, by decide!, by decide!, by decide!, by decide!, by decide!⟩⟩

/-- C5 (evaluation at the failing input). `PostEditChangeProperty` never writes the noise
generator; after start-up with `Scale = 1` and an edit to `Scale = 2` the member
`frequency` is the new `256 / 2 = 128`, but the frequency set on the noise generator is
still `0.0000625 * 256 / 16 = 1 / 1000` and not `0.0000625 * 128 / 16 = 1 / 2000`. -/
theorem noise_frequency_stale :
    (∀ s : AProceduralTerrain, (PostEditChangeProperty s).1.noiseGen = s.noiseGen)
      ∧ (scenarioStart 1 100 250).noiseGen.Frequency = 1 / 1000
      ∧ (editProperties (scenarioStart 1 100 250) (scenarioProps 2 100 250)).1.Scale = 2
      ∧ (editProperties (scenarioStart 1 100 250) (scenarioProps 2 100 250)).1.frequency = 128
      ∧ (editProperties (scenarioStart 1 100 250) (scenarioProps 2 100 250)).1.noiseGen.Frequency
          = 1 / 1000
      ∧ (scenarioStart 2 100 250).noiseGen.Frequency = 1 / 2000
      ∧ (625 / 10000000 : ℚ) * (256 / 2) / 16 = 1 / 2000 := by
  refine ⟨fun _ => rfl, ?_, ?_, ?_, ?_, ?_, ?_⟩ <;> decide!

/-- C6. Reset: from every prior state, after `PostEditChangeProperty` returns the Spawned
table and the Chunk Cache are both empty, the call has unregistered and destroyed every
handle once per entry of the Spawned table that held it, and no component with such a
handle is registered with the world any more; in every reachable prior state the handles of
the Spawned table are distinct objects, so each mesh component that was in the table has
been unregistered exactly once and destroyed exactly once. -/
theorem PostEditChangeProperty_reset (s : AProceduralTerrain) :
    (PostEditChangeProperty s).1.chunkMap.entries = []
      ∧ (PostEditChangeProperty s).1.infoMap.entries = []
      ∧ (∀ h : MeshHandle,
          (PostEditChangeProperty s).2.count (Event.unregisterComponent h)
              = s.chunkMap.values.count h
            ∧ (PostEditChangeProperty s).2.count (Event.destroyComponent h)
              = s.chunkMap.values.count h)
      ∧ (∀ h ∈ s.chunkMap.values, ∀ m ∈ (PostEditChangeProperty s).1.world, m.id ≠ h)
      ∧ (Reachable s → ∀ h ∈ s.chunkMap.values,
          (PostEditChangeProperty s).2.count (Event.unregisterComponent h) = 1
            ∧ (PostEditChangeProperty s).2.count (Event.destroyComponent h) = 1) := by
  have hcounts : ∀ h : MeshHandle,
      (PostEditChangeProperty s).2.count (Event.unregisterComponent h)
          = s.chunkMap.values.count h
        ∧ (PostEditChangeProperty s).2.count (Event.destroyComponent h)
          = s.chunkMap.values.count h := by
    intro h
    constructor
    · simp only [PostEditChangeProperty, List.count_append, count_unregister_flatMap,
        TMap.values]
      simp [List.count_cons]
    · simp only [PostEditChangeProperty, List.count_append, count_destroy_flatMap,
        TMap.values]
      simp [List.count_cons]
  refine ⟨rfl, rfl, hcounts, ?_, ?_⟩
  · intro h hh m hm hid
    have := (mem_foldl_unregisterAndDestroy _ _ _).1 hm
    exact this.2 (by rw [hid]; exact hh)
  · intro hs h hh
    have hnd : s.chunkMap.values.Nodup := hs.consistent.2.1
    have hcount : s.chunkMap.values.count h = 1 := List.count_eq_one_of_mem hnd hh
    rw [(hcounts h).1, (hcounts h).2, hcount]
    exact ⟨rfl, rfl⟩

/-- C6, witness: with one spawned chunk whose component is object `0`, the reset
unregisters object `0` once and destroys it once. -/
theorem PostEditChangeProperty_reset_witness :
    Reachable (scenarioSpawned 100 250 0 0)
      ∧ 0 ∈ (scenarioSpawned 100 250 0 0).chunkMap.values
      ∧ (PostEditChangeProperty (scenarioSpawned 100 250 0 0)).2.count
          (Event.unregisterComponent 0) = 1
      ∧ (PostEditChangeProperty (scenarioSpawned 100 250 0 0)).2.count
          (Event.destroyComponent 0) = 1 :=
  ⟨scenarioSpawned_reachable 100 250 0 0, by decide!,
    (PostEditChangeProperty_reset (scenarioSpawned 100 250 0 0)).2.2.2.2
      (scenarioSpawned_reachable 100 250 0 0) 0 (by decide!)⟩

/-- C7. Silent skip: `spawnChunk (x, y)` always returns; when `(x, y)` is absent from the
Chunk Cache or already a key of the Spawned table it returns the state it was called in
(Spawned table, Chunk Cache and registered mesh components included) and calls nothing on
a mesh component; and a second call right after the first changes nothing. -/
theorem spawnChunk_silent_skip (s : AProceduralTerrain) (x y : Int) :
    (((x, y) ∉ s.infoMap.keys ∨ (x, y) ∈ s.chunkMap.keys) →
        (spawnChunk s x y).1 = s ∧ ∀ e ∈ (spawnChunk s x y).2, e.isMeshCall = false)
      ∧ (spawnChunk (spawnChunk s x y).1 x y).1 = (spawnChunk s x y).1 := by
  constructor
  · intro h
    by_cases h1 : (x, y) ∈ s.chunkMap.keys
    · rw [spawnChunk_of_spawned s x y h1]
      refine ⟨rfl, ?_⟩
      intro e he
      simp only [List.mem_cons, List.mem_singleton, List.not_mem_nil, or_false] at he
      rcases he with rfl | rfl | rfl <;> rfl
    · have h2 : (x, y) ∉ s.infoMap.keys := h.resolve_right h1
      rw [spawnChunk_of_not_cached s x y h1 h2]
      refine ⟨rfl, ?_⟩
      intro e he
      simp only [List.mem_cons, List.mem_singleton, List.not_mem_nil, or_false] at he
      rcases he with rfl | rfl | rfl | rfl <;> rfl
  · by_cases h1 : (x, y) ∈ s.chunkMap.keys
    · rw [spawnChunk_of_spawned s x y h1]
      simp only
      rw [spawnChunk_of_spawned s x y h1]
    · by_cases h2 : (x, y) ∈ s.infoMap.keys
      · have h3 : (x, y) ∈ (spawnChunk s x y).1.chunkMap.keys :=
          (mem_keys_spawnChunk s x y (x, y)).2 (Or.inr ⟨rfl, h2⟩)
        rw [spawnChunk_of_spawned _ x y h3]
      · rw [spawnChunk_of_not_cached s x y h1 h2]
        simp only
        rw [spawnChunk_of_not_cached s x y h1 h2]

/-- C7, witness: right after start-up `(0, 0)` is not cached and `spawnChunk (0, 0)`
returns the state unchanged. -/
theorem spawnChunk_silent_skip_witness :
    ((0, 0) ∉ (scenarioStart 1 100 250).infoMap.keys
        ∨ (0, 0) ∈ (scenarioStart 1 100 250).chunkMap.keys)
      ∧ (spawnChunk (scenarioStart 1 100 250) 0 0).1 = scenarioStart 1 100 250
      ∧ ∀ e ∈ (spawnChunk (scenarioStart 1 100 250) 0 0).2, e.isMeshCall = false :=
  ⟨Or.inl (by decide!),
    (spawnChunk_silent_skip (scenarioStart 1 100 250) 0 0).1 (Or.inl (by decide!))⟩

/-- C9. Every access of the actor to the Chunk Cache (the containment check and the
lookup in `spawnChunk`, the bulk clear in `PostEditChangeProperty`) and every insertion
into and removal from the Spawned table happens while `ChunkDeletion` is held: the events
of `spawnChunk`, of `cullAndSpawnChunks` and of `PostEditChangeProperty` pass `lockScan`
and leave the lock free.  Hence the check-and-create of `spawnChunk` is atomic: in every
interleaving with another thread that respects mutual exclusion on the lock, an event of
the other thread that needs the lock (a cache write of the worker, a reset) comes before
the first or after the last event of the `spawnChunk` call. -/
theorem lock_held :
    (∀ (s : AProceduralTerrain) (x y : Int), lockScan false (spawnChunk s x y).2 = some false)
      ∧ (∀ (s : AProceduralTerrain) (P : FVector2D) (r : AProceduralTerrain × List Event),
          cullAndSpawnChunks s P = some r → lockScan false r.2 = some false)
      ∧ (∀ s : AProceduralTerrain, lockScan false (PostEditChangeProperty s).2 = some false)
      ∧ (∀ (s : AProceduralTerrain) (x y : Int) (a b : List (Thread × Event)) (e : Event),
          e.needsLock = true →
          exclusive none (a ++ (Thread.background, e) :: b) = true →
          eventsOf Thread.foreground (a ++ (Thread.background, e) :: b) = (spawnChunk s x y).2 →
          eventsOf Thread.foreground a = [] ∨ eventsOf Thread.foreground b = []) := by
  refine ⟨lockScan_spawnChunk, lockScan_cullAndSpawnChunks, lockScan_PostEditChangeProperty,
    ?_⟩
  intro s x y a b e he hex hev
  obtain ⟨body, hbody, hun⟩ := spawnChunk_critical_section s x y
  have hne : ¬ (Thread.background = Thread.foreground) := by decide
  rw [eventsOf_append, eventsOf_cons, if_neg hne, hbody] at hev
  by_cases ha : eventsOf Thread.foreground a = []
  · exact Or.inl ha
  by_cases hb : eventsOf Thread.foreground b = []
  · exact Or.inr hb
  exfalso
  obtain ⟨e0, body1, hcons⟩ := List.exists_cons_of_ne_nil ha
  rw [hcons, List.cons_append] at hev
  obtain ⟨h0, hrest⟩ := List.cons.inj hev
  subst h0
  have hmem : Event.unlock ∈ body1 := exclusive_after_lock e he b a none body1 hex hcons
  rcases List.append_eq_append_iff.1 hrest with ⟨a2, h1, _⟩ | ⟨c2, h1, h2⟩
  · exact hun (by rw [h1]; exact List.mem_append_left _ hmem)
  · have hc2 : c2 = [] := by
      cases c2 with
      | nil => rfl
      | cons d rest =>
        have hlen := congrArg List.length h2
        simp only [List.length_cons, List.length_nil, List.length_append] at hlen
        have : 0 < (eventsOf Thread.foreground b).length := List.length_pos.2 hb
        omega
    rw [hc2, List.append_nil] at h1
    exact hun (by rw [← h1]; exact hmem)

/-- C9, witness: a `spawnChunk` call and a tick pass the scan, and in the interleaving where
the worker inserts `(1, 0)` under the lock before the `spawnChunk` call starts, the write of
the worker comes before the first event of the call. -/
theorem lock_held_witness :
    lockScan false (spawnChunk (scenario 100 250 [(0, 0)]) 0 0).2 = some false
      ∧ (∃ r, cullAndSpawnChunks (scenario 100 250 [(0, 0)]) origin = some r
          ∧ lockScan false r.2 = some false)
      ∧ Event.needsLock (Event.infoMapAdd (1, 0) emptyInfo) = true
      ∧ exclusive none
          ([(Thread.background, Event.lock)]
            ++ (Thread.background, Event.infoMapAdd (1, 0) emptyInfo)
              :: ((Thread.background, Event.unlock)
                :: (spawnChunk (scenario 100 250 [(0, 0)]) 0 0).2.map
                    (fun e => (Thread.foreground, e)))) = true
      ∧ (eventsOf Thread.foreground [(Thread.background, Event.lock)] = []
          ∨ eventsOf Thread.foreground ((Thread.background, Event.unlock)
              :: (spawnChunk (scenario 100 250 [(0, 0)]) 0 0).2.map
                  (fun e => (Thread.foreground, e))) = []) :=
  ⟨lock_held.1 _ 0 0,
    match spawnWindow_isSome (scenario 100 250 [(0, 0)]) origin (by decide!) (by decide!)
      (by decide!) (by decide!) with
    | ⟨w, hw⟩ =>
      match cullAndSpawnChunks_spec (scenario 100 250 [(0, 0)]) origin w hw with
      | ⟨r, hr, _⟩ => ⟨r, hr, lock_held.2.1 _ origin r hr⟩,
    by decide, by decide!,
    lock_held.2.2.2 (scenario 100 250 [(0, 0)]) 0 0 [(Thread.background, Event.lock)]
      ((Thread.background, Event.unlock)
        :: (spawnChunk (scenario 100 250 [(0, 0)]) 0 0).2.map (fun e => (Thread.foreground, e)))
      (Event.infoMapAdd (1, 0) emptyInfo) (by decide) (by decide!) (by decide!)⟩

/-- C10 (amended). Post-tick bound: `cullAndSpawnChunks` returns when its four loop
bounds are defined, and when it returns every coordinate left in the Spawned table fails
the cull test as the code evaluates it in binary32: the computed
`distanceFromPlayerSquare + 10000.0f`, the distance being measured from the world origin
corner of the chunk, is not greater than the computed `RenderRadius^2`.  In particular,
with a finite `ChunkSize` the table is empty after the tick when the computed
`RenderRadius^2` is below `10000`. -/
theorem post_tick_bound (s : AProceduralTerrain) (P : FVector2D) :
    ((xStart s P).isSome = true → (xEnd s P).isSome = true →
        (yStart s P).isSome = true → (yEnd s P).isSome = true →
        ∃ r, cullAndSpawnChunks s P = some r)
      ∧ ∀ r, cullAndSpawnChunks s P = some r →
          (∀ c ∈ r.1.chunkMap.keys,
              F32.lt (renderRadiusSquare s)
                (F32.add (distanceFromPlayerSquare s P c) (F32.fin 10000)) = false)
            ∧ (∀ σ, s.ChunkSize = F32.fin σ →
                F32.lt (renderRadiusSquare s) (F32.fin 10000) = true →
                r.1.chunkMap.entries = []) := by
  constructor
  · intro h1 h2 h3 h4
    obtain ⟨w, hw⟩ := spawnWindow_isSome s P h1 h2 h3 h4
    obtain ⟨r, hr, _⟩ := cullAndSpawnChunks_spec s P w hw
    exact ⟨r, hr⟩
  · intro r hr
    have hbound := (cullAndSpawnChunks_keys s P r hr).1
    refine ⟨hbound, ?_⟩
    intro σ hσ hR
    obtain ⟨⟨px, hpx⟩, ⟨py, hpy⟩, h0⟩ := cullAndSpawnChunks_finite s P r hr
    have hσ0 : σ ≠ 0 := by
      intro hz
      apply h0
      rw [hσ, hz]
    apply List.eq_nil_iff_forall_not_mem.2
    intro e he
    have h1 : cullTest s P e.1 = false := hbound e.1 (List.mem_map.2 ⟨e, he, rfl⟩)
    have h2 : cullTest s P e.1 = true :=
      F32.lt_add_10000 _ _ (distanceFromPlayerSquare_nonneg s P e.1 σ px py hσ hσ0 hpx hpy) hR
    rw [h1] at h2
    exact absurd h2 (by simp)

/-- C10, witness: the scenario of the spec returns with every spawned coordinate failing
the cull test, and with `RenderRadius = 50` the table is empty after the tick. -/
theorem post_tick_bound_witness :
    (∃ r, cullAndSpawnChunks (scenario 100 250 (cacheBox 4)) origin = some r
        ∧ (1, 0) ∈ r.1.chunkMap.keys
        ∧ ∀ c ∈ r.1.chunkMap.keys,
            F32.lt (renderRadiusSquare (scenario 100 250 (cacheBox 4)))
              (F32.add (distanceFromPlayerSquare (scenario 100 250 (cacheBox 4)) origin c)
                (F32.fin 10000)) = false)
      ∧ (scenarioSpawned 100 50 0 0).ChunkSize = F32.fin 100
      ∧ (0, 0) ∈ (scenarioSpawned 100 50 0 0).chunkMap.keys
      ∧ F32.lt (renderRadiusSquare (scenarioSpawned 100 50 0 0)) (F32.fin 10000) = true
      ∧ (∃ r, cullAndSpawnChunks (scenarioSpawned 100 50 0 0) origin = some r
          ∧ r.1.chunkMap.entries = []) :=
  ⟨match (post_tick_bound (scenario 100 250 (cacheBox 4)) origin).1
      (by decide!) (by decide!) (by decide!) (by decide!) with
    | ⟨r, hr⟩ => ⟨r, hr,
        by
          have h : (cullAndSpawnChunks (scenario 100 250 (cacheBox 4)) origin).map
              (fun r => decide ((1, 0) ∈ r.1.chunkMap.keys)) = some true := by decide!
          rw [hr] at h
          simpa using h,
        ((post_tick_bound (scenario 100 250 (cacheBox 4)) origin).2 r hr).1⟩,
    by decide!, by decide!, by decide!,
    match (post_tick_bound (scenarioSpawned 100 50 0 0) origin).1
      (by decide!) (by decide!) (by decide!) (by decide!) with
    | ⟨r, hr⟩ => ⟨r, hr,
        ((post_tick_bound (scenarioSpawned 100 50 0 0) origin).2 r hr).2 100 (by decide!)
          (by decide!)⟩⟩

/-- C10, counterexample: with `ChunkSize = 65536`, `RenderRadius = 524288`, the observer at
the origin and chunk `(8, 0)` spawned before, the tick returns and leaves `(8, 0)` in the
Spawned table, although in exact arithmetic
`(8 * 65536 - 0)^2 + (0 * 65536 - 0)^2 + 10000 = 2^38 + 10000` is greater than
`RenderRadius^2 = 2^38`: in binary32 the sum rounds to `2^38`, which is not greater than
`2^38`. -/
theorem post_tick_bound_counterexample :
    (scenarioSpawned 65536 524288 8 0).ChunkSize = F32.fin 65536
      ∧ (scenarioSpawned 65536 524288 8 0).RenderRadius = F32.fin 524288
      ∧ origin = ⟨F32.fin 0, F32.fin 0⟩
      ∧ (cullAndSpawnChunks (scenarioSpawned 65536 524288 8 0) origin).map
          (fun r => r.1.chunkMap.keys) = some [(8, 0)]
      ∧ ¬ (((8 : Int) : ℚ) * 65536 - 0) ^ 2 + (((0 : Int) : ℚ) * 65536 - 0) ^ 2 + 10000
          ≤ (524288 : ℚ) ^ 2 := by
  refine ⟨by decide!, by decide!, by decide!, by decide!, by norm_num⟩

end TerrainGen
